import Mathlib

/-!
Verification of the Taproot workshop cryptographic core: key tweaking,
MuSig aggregation, and Huffman TapTree construction.

The notebooks under study call into an external curve-arithmetic and
tagged-hash layer (`test_framework.key`, `test_framework.musig`,
`test_framework.script`); that layer is modelled here from the
specification, while the notebook cells themselves are translated
directly.  Hash primitives are abstracted as function parameters, and a
small cyclic group of order 11 instantiates the point-group interface for
concrete evaluation.
-/

set_option linter.unusedVariables false

namespace TaprootWS

/-- Modelled from the spec: the external curve-arithmetic library supplies an
abelian group of points with scalar multiplication by scalars mod the group
order `N`, a fixed generator `G`, an x-only coordinate encoding `xonly`, and
a y-parity test `evenY`.  Negating a point keeps its x-coordinate and (away
from the identity) flips its parity, and only the zero scalar kills `G`. -/
class SchnorrGroup (P : Type) (N : outParam ℕ) [AddCommGroup P] [Module (ZMod N) P] where
  G : P
  xonly : P → ℕ
  evenY : P → Bool
  xonly_neg : ∀ p : P, xonly (-p) = xonly p
  evenY_neg : ∀ p : P, p ≠ 0 → evenY (-p) = !evenY p
  smulG_eq_zero : ∀ k : ZMod N, k • G = 0 → k = 0

open SchnorrGroup

section Group

variable {P : Type} {N : ℕ} [AddCommGroup P] [Module (ZMod N) P] [SchnorrGroup P N]

open SchnorrGroup

/-- Modelled from the spec: `tweak_add(P, t)` returns `P + t·G`. -/
def tweak_add (p : P) (t : ZMod N) : P := p + t • (G : P)

/-- Modelled from the spec: `tweak_private(x, t)` returns `(x + t) mod n`. -/
def tweak_private (x t : ZMod N) : ZMod N := x + t

/-- Modelled from the spec: plain single-key Schnorr verification against the
public key `q` held by the verifier.  The challenge is recomputed with the
external BIP0340/challenge tagged hash (abstracted as `chal`) over the
signature's r value, the x-only encoding of `q` and the message; the
signature passes when `s·G − e·Q` is an even-y point whose x-coordinate is
the signature's r value. -/
def verify_schnorr (chal : ℕ → ℕ → ℕ → ZMod N) (q : P) (sig : ℕ × ZMod N)
    (m : ℕ) : Bool :=
  let e := chal sig.1 (xonly q) m
  let v := sig.2 • (G : P) - e • q
  evenY v && (xonly v == sig.1)

/-- Modelled from the spec: single-signer Schnorr signing.  The nonce `k` is
derived from the secret and message by the external nonce tagged hash
(abstracted as `nonceh`); if `R = k·G` has odd y the signer negates `k` (not
`R`), the challenge is the BIP0340/challenge digest of `(R.x, P, m)`, and the
signature is `(R.x, k + e·x)`.  Following the workshop convention the secret
is used as given: callers are responsible for keeping key pairs even-y. -/
def sign_schnorr (chal : ℕ → ℕ → ℕ → ZMod N) (nonceh : ZMod N → ℕ → ZMod N)
    (x : ZMod N) (m : ℕ) : ℕ × ZMod N :=
  let k := nonceh x m
  let r := k • (G : P)
  let k1 := if evenY r then k else -k
  let e := chal (xonly r) (xonly (x • (G : P))) m
  (xonly r, k1 + e * x)

/-- Modelled from the spec: `musig_digest(R, Q, m)` is the BIP0340/challenge
tagged hash (abstracted as `chal`) of the x-only encodings of the aggregate
nonce point and combined public key together with the message, as a scalar. -/
def musig_digest (chal : ℕ → ℕ → ℕ → ZMod N) (r q : P) (m : ℕ) : ZMod N :=
  chal (xonly r) (xonly q) m

/-- Modelled from the spec: `generate_musig_key`: each participant's challenge
factor `c_i = hash(L ‖ P_i)` is derived by the external tagged hash from the
key-set hash `L` and the participant key; the derivation is abstracted as
`keyhash` applied to the key list and the key.  The aggregate key is
`Σ c_i·P_i`.  Returns the challenge-factor map and the aggregate key. -/
def generate_musig_key (keyhash : List P → P → ZMod N) (pks : List P) :
    (P → ZMod N) × P :=
  (keyhash pks, (pks.map (fun p => keyhash pks p • p)).sum)

/-- Modelled from the spec: `aggregate_schnorr_nonces`: sum the nonce points
and report whether the sum has odd y — in which case every signer negates
their own nonce scalar — returning the sum itself unchanged. -/
def aggregate_schnorr_nonces (rs : List P) : P × Bool :=
  (rs.sum, !evenY rs.sum)

/-- Modelled from the spec: `sign_musig` produces the partial signature
`s_i = k + e·x` with `e` the musig digest of the aggregate nonce, combined
key and message.  A zero secret or zero nonce is a domain error, rejected
before any private-key computation. -/
def sign_musig (chal : ℕ → ℕ → ℕ → ZMod N) (x k : ZMod N) (r q : P)
    (m : ℕ) : Option (ZMod N) :=
  if x = 0 ∨ k = 0 then none
  else some (k + musig_digest chal r q m * x)

/-- Modelled from the spec: `aggregate_musig_signatures`: the final signature
is `(R.x, Σ s_i mod n)`, over the list of partial signatures (which may
include a tweak correction term). -/
def aggregate_musig_signatures (ss : List (ZMod N)) (r : P) : ℕ × ZMod N :=
  (xonly r, ss.sum)

/-- Example 2.2.4 of `2.2-taptweak.ipynb`: Alice recomputes an alternative
private key `x2 = (x − t2 + t) mod n` for the modified commitment `t2`. -/
def example_2_2_4_x2 (x t t2 : ZMod N) : ZMod N := x - t2 + t

/-- Exercise 2.1.14 of `2.1-segwit-version-1.ipynb`, nonce negation step: the
cell computes the aggregate nonce of the two signers and, when negation is
required, executes `nounce1.negate()` / `nounce2.negate()` — names that are
not defined anywhere in the notebook, so the interpreter raises a NameError.
The error outcome is modelled as `none`; the successful branch returns the
signers' nonce scalars unchanged. -/
def exercise_2_1_14_nonce_step (k1 k2 : ZMod N) : Option (ZMod N × ZMod N) :=
  let rn := aggregate_schnorr_nonces [k1 • (G : P), k2 • (G : P)]
  if rn.2 then none else some (k1, k2)


/-- The even-y normalization applied after aggregation steps: the point
itself when its y is even, its negation otherwise. -/
def evenKey (p : P) : P := if evenY p then p else -p

/-- The list of participant public keys derived from the secrets, as
generated at the start of each notebook session. -/
def musig_pks (xs : List (ZMod N)) : List P := xs.map (fun x => x • (G : P))

/-- Exercise 2.2.2 of `2.2-taptweak.ipynb` and Exercise 3.1.4 of
`3.1-degrading-multisig-case-study.ipynb`, generalized to any participant
list as in the spec's MuSig signing session: aggregate the keys, scale each
secret by its challenge factor, negate the scaled secrets together with the
aggregate key if it has odd y, tweak the (even-y) aggregate key by `t`,
aggregate the nonces (each signer negating their own nonce scalar when the
aggregate nonce point has odd y, the point itself staying unchanged),
produce the partial signatures against the tweaked key, and aggregate them
with a single correction term `e·t` appended to the partial-signature
list. -/
def musig_session (chal : ℕ → ℕ → ℕ → ZMod N) (keyhash : List P → P → ZMod N)
    (xs : List (ZMod N)) (t : ZMod N) (ks : List (ZMod N)) (m : ℕ) :
    Option (ℕ × ZMod N) :=
  let pks := musig_pks (P := P) xs
  let cq := generate_musig_key keyhash pks
  let xcs0 := xs.map (fun x => x * keyhash pks (x • (G : P)))
  let qeven := evenKey cq.2
  let xcs := if evenY cq.2 then xcs0 else xcs0.map (fun y => -y)
  let qt := tweak_add qeven t
  let rn := aggregate_schnorr_nonces (ks.map (fun k => k • (G : P)))
  let ks1 := if rn.2 then ks.map (fun k => -k) else ks
  let e := musig_digest chal rn.1 qt m
  match (ks1.zip xcs).mapM (fun kx => sign_musig chal kx.2 kx.1 rn.1 qt m) with
  | none => none
  | some ss => some (aggregate_musig_signatures (ss ++ [e * t]) rn.1)


end Group


/-- Byte strings, modelled as lists of naturals. -/
abbrev Bytes := List ℕ

/-- Lexicographic comparison of byte strings, used to sort tagged hashes
into canonical order. -/
def bytesLe : Bytes → Bytes → Bool
  | [], _ => true
  | _ :: _, [] => false
  | a :: as, b :: bs => if a < b then true else if b < a then false else bytesLe as bs

/-- The ASCII bytes of the `TapLeaf` hash tag. -/
def tapLeafTag : Bytes := [84, 97, 112, 76, 101, 97, 102]

/-- The ASCII bytes of the `TapBranch` hash tag. -/
def tapBranchTag : Bytes := [84, 97, 112, 66, 114, 97, 110, 99, 104]

/-- The ASCII bytes of the `TapTweak` hash tag. -/
def tapTweakTag : Bytes := [84, 97, 112, 84, 119, 101, 97, 107]

/-- The 32-byte big-endian encoding of a natural number modulo `2^256`,
used to serialize x-only public keys. -/
def natBytes32 (n : ℕ) : Bytes :=
  ((List.range 32).map (fun i => n / 256 ^ i % 256)).reverse

/-- The challenge-scaled key material computed by Example 3.1.2 of
`3.1-degrading-multisig-case-study.ipynb`. -/
structure ScaledKeys (Pt : Type) (N : ℕ) where
  xA : ZMod N
  xB : ZMod N
  xC : ZMod N
  pA : Pt
  pB : Pt
  pC : Pt
  agg : Pt

section Group2

variable {P : Type} {N : ℕ} [AddCommGroup P] [Module (ZMod N) P] [SchnorrGroup P N]

open SchnorrGroup

/-- Example 3.1.2 of `3.1-degrading-multisig-case-study.ipynb`: aggregate the
three main wallet keys, scale private and public keys by the challenge
factors, and negate everything if the aggregate key has odd y.  The cell
computes `main_pubkeyB_c` and `main_pubkeyC_c` from `main_pubkeyA`
(`main_pubkeyA.mul(c_map[main_pubkeyB])`, lines 146-147 of the notebook),
which is translated verbatim below. -/
def example_3_1_2 (keyhash : List P → P → ZMod N) (xA xB xC : ZMod N) :
    ScaledKeys P N :=
  let pA := xA • (G : P)
  let pB := xB • (G : P)
  let pC := xC • (G : P)
  let pks := [pA, pB, pC]
  let cq := generate_musig_key keyhash pks
  let c := cq.1
  let xAc := xA * c pA
  let xBc := xB * c pB
  let xCc := xC * c pC
  let pAc := c pA • pA
  let pBc := c pB • pA
  let pCc := c pC • pA
  if evenY cq.2 then ⟨xAc, xBc, xCc, pAc, pBc, pCc, cq.2⟩
  else ⟨-xAc, -xBc, -xCc, -pAc, -pBc, -pCc, -cq.2⟩


/-- Example 2.2.3 of `2.2-taptweak.ipynb`: the insecure commitment tweak is
the sha256 of the contract text alone; the key pair in scope is not an input
to the hash.  The sha256 primitive is external, abstracted as `sha`. -/
def insecure_tweak (sha : Bytes → Bytes) (keypair : ZMod N × P)
    (contract : Bytes) : Bytes :=
  sha contract

/-- Example 2.2.5 of `2.2-taptweak.ipynb`: the pay-to-contract hash input,
the x-only serialization of the public key followed by the contract bytes. -/
def p2c_tweak_input (p : P) (contract : Bytes) : Bytes :=
  natBytes32 (xonly p) ++ contract

/-- Example 2.2.5 of `2.2-taptweak.ipynb`: the pay-to-contract tweak
`tagged_hash("TapTweak", P ‖ contract)`, with the tagged-hash primitive
abstracted as `tagged`. -/
def p2c_tweak (tagged : Bytes → Bytes → Bytes) (p : P) (contract : Bytes) : Bytes :=
  tagged tapTweakTag (p2c_tweak_input p contract)


end Group2


/-- Modelled from the spec: a TapTree node is a leaf (version byte plus
serialized script) or an internal branch with two children. -/
inductive TapNode where
  | tleaf (ver : ℕ) (script : Bytes)
  | tbranch (l r : TapNode)
deriving DecidableEq, Repr

/-- Modelled from the spec: the identifying tagged hash of a node.  A leaf is
hashed as `tagged_hash("TapLeaf", version ‖ script)`; a branch hashes its
children's identifying hashes sorted into lexicographic order under
`"TapBranch"`, so the branch hash is invariant to argument order.  The
external tagged-hash primitive is abstracted as `h`. -/
def tapHash (h : Bytes → Bytes → Bytes) : TapNode → Bytes
  | .tleaf ver script => h tapLeafTag (ver :: script)
  | .tbranch l r =>
    let hl := tapHash h l
    let hr := tapHash h r
    if bytesLe hl hr then h tapBranchTag (hl ++ hr) else h tapBranchTag (hr ++ hl)

/-- Modelled from the spec: combining two nodes into a TapBranch whose
children are sorted by their own identifying hash. -/
def mkTapbranch (h : Bytes → Bytes → Bytes) (a b : TapNode) : TapNode :=
  if bytesLe (tapHash h a) (tapHash h b) then .tbranch a b else .tbranch b a

/-- Modelled from the spec: the priority-queue order for the Huffman
constructor: ascending assigned weight, ties broken by comparing the
identifying hashes lexicographically. -/
def keyLe (h : Bytes → Bytes → Bytes) (a b : ℕ × TapNode) : Bool :=
  if a.1 < b.1 then true
  else if b.1 < a.1 then false
  else bytesLe (tapHash h a.2) (tapHash h b.2)

/-- Sorted insertion into the Huffman queue. -/
def qInsert (h : Bytes → Bytes → Bytes) (e : ℕ × TapNode) :
    List (ℕ × TapNode) → List (ℕ × TapNode)
  | [] => [e]
  | x :: xs => if keyLe h e x then e :: x :: xs else x :: qInsert h e xs

/-- Insertion sort of the Huffman queue by weight and identifying hash. -/
def qSort (h : Bytes → Bytes → Bytes) : List (ℕ × TapNode) → List (ℕ × TapNode)
  | [] => []
  | x :: xs => qInsert h x (qSort h xs)

/-- Modelled from the spec: the Huffman combining loop — while more than one
entry remains, pop the two entries of lowest weight, combine them into a
TapBranch carrying the sum of the weights, and re-insert.  The loop runs at
most `fuel` steps; callers pass the queue length, which always suffices. -/
def hLoop (h : Bytes → Bytes → Bytes) : ℕ → List (ℕ × TapNode) → Option TapNode
  | _, [] => none
  | _, [e] => some e.2
  | 0, _ :: _ :: _ => none
  | fuel + 1, e1 :: e2 :: rest =>
      hLoop h fuel (qInsert h (e1.1 + e2.1, mkTapbranch h e1.2 e2.2) rest)

/-- Modelled from the spec: `huffman_constructor` seeds the queue with one
entry per `(weight, leaf)` pair, sorts it by weight with hash tie-break, and
runs the combining loop; the final entry is the tree root. -/
def huffman_constructor (h : Bytes → Bytes → Bytes) (l : List (ℕ × TapNode)) :
    Option TapNode :=
  hLoop h l.length (qSort h l)

/-- Modelled from the spec: walk from each leaf to the root, recording the
sibling hash at each step; each leaf script is paired with its leaf-to-root
sibling-hash list (its inclusion proof). -/
def ctrlWalk (h : Bytes → Bytes → Bytes) : TapNode → List (Bytes × List Bytes)
  | .tleaf _ s => [(s, [])]
  | .tbranch l r =>
      (ctrlWalk h l).map (fun p => (p.1, p.2 ++ [tapHash h r]))
        ++ (ctrlWalk h r).map (fun p => (p.1, p.2 ++ [tapHash h l]))

/-- Modelled from the spec: a TapTree is an internal (x-only, 32-byte)
public key together with a root node. -/
structure TapTree where
  key : Bytes
  root : TapNode

/-- Modelled from the spec: `construct()` derives the root tweak
`tagged_hash("TapTweak", internal_key ‖ root_hash)` and the map from each
leaf script to its control block, `version/parity byte ‖ internal key ‖
sibling hashes`.  The version/parity byte is modelled as the constant 0xc0
and the output-script assembly is outside the modelled core. -/
def construct (h : Bytes → Bytes → Bytes) (tt : TapTree) :
    Bytes × List (Bytes × Bytes) :=
  (h tapTweakTag (tt.key ++ tapHash h tt.root),
   (ctrlWalk h tt.root).map (fun p => (p.1, 192 :: (tt.key ++ p.2.flatten))))

/-- The depth of the first occurrence of a leaf with the given script. -/
def leafDepth (s : Bytes) : TapNode → Option ℕ
  | .tleaf _ s2 => if s2 = s then some 0 else none
  | .tbranch l r =>
    match leafDepth s l with
    | some d => some (d + 1)
    | none =>
      match leafDepth s r with
      | some d => some (d + 1)
      | none => none

/-- The depth of the first occurrence of a given subtree. -/
def nodeDepth (x : TapNode) : TapNode → Option ℕ
  | .tleaf v s => if TapNode.tleaf v s = x then some 0 else none
  | .tbranch l r =>
    if TapNode.tbranch l r = x then some 0
    else
      match nodeDepth x l with
      | some d => some (d + 1)
      | none =>
        match nodeDepth x r with
        | some d => some (d + 1)
        | none => none

/-- The scripts of the leaves of a node, left to right. -/
def leafScripts : TapNode → List Bytes
  | .tleaf _ s => [s]
  | .tbranch l r => leafScripts l ++ leafScripts r


/-- The member list of an instrumented Huffman-queue element: each leaf
script below the element's root, paired with its depth inside the element. -/
abbrev Mem := List (Bytes × ℕ)

/-- An instrumented Huffman-queue element: assigned weight, node, and the
member list of its leaves. -/
abbrev Elem := ℕ × TapNode × Mem

/-- Shift every member one level deeper. -/
def bump (m : Mem) : Mem := m.map (fun p => (p.1, p.2 + 1))

/-- The queue projection of an instrumented element. -/
def eproj (e : Elem) : ℕ × TapNode := (e.1, e.2.1)

/-- Combining two instrumented elements mirrors the Huffman combine step. -/
def emerge (h : Bytes → Bytes → Bytes) (a b : Elem) : Elem :=
  (a.1 + b.1, mkTapbranch h a.2.1 b.2.1, bump a.2.2 ++ bump b.2.2)

/-- The instrumented queue order, identical to `keyLe` on projections. -/
def ekeyLe (h : Bytes → Bytes → Bytes) (a b : Elem) : Bool :=
  keyLe h (eproj a) (eproj b)

/-- Sorted insertion of an instrumented element. -/
def eInsert (h : Bytes → Bytes → Bytes) (e : Elem) : List Elem → List Elem
  | [] => [e]
  | x :: xs => if ekeyLe h e x then e :: x :: xs else x :: eInsert h e xs

/-- The instrumented Huffman combining loop, mirroring `hLoop`. -/
def eLoop (h : Bytes → Bytes → Bytes) : ℕ → List Elem → Option Elem
  | _, [] => none
  | _, [e] => some e
  | 0, _ :: _ :: _ => none
  | fuel + 1, e1 :: e2 :: rest => eLoop h fuel (eInsert h (emerge h e1 e2) rest)

/-- The member list of a node: its leaf scripts with their depths. -/
def ndMems : TapNode → Mem
  | .tleaf _ s => [(s, 0)]
  | .tbranch l r => bump (ndMems l) ++ bump (ndMems r)

/-- The instrumented element of a `(weight, node)` queue entry. -/
def enrich (e : ℕ × TapNode) : Elem := (e.1, e.2, ndMems e.2)

/-- All leaf scripts carried by a queue of instrumented elements. -/
def scriptsOf (q : List Elem) : List Bytes :=
  q.flatMap (fun e => e.2.2.map Prod.fst)

/-- `Root fin a d` says element `a` sits at depth `d` in the final tree:
every member of `a` reappears in the final member list `d` levels deeper. -/
def Root (fin a : Elem) (d : ℕ) : Prop :=
  a.2.2 ≠ [] ∧ ∀ sk ∈ a.2.2, (sk.1, sk.2 + d) ∈ fin.2.2

/-- Queue invariant S: a strictly heavier element never ends strictly
deeper. -/
def InvS (fin : Elem) (q : List Elem) : Prop :=
  ∀ a ∈ q, ∀ b ∈ q, a.1 < b.1 →
    ∀ da db, Root fin a da → Root fin b db → db ≤ da

/-- Queue invariant E: equal-weight elements end within one level of each
other. -/
def InvE (fin : Elem) (q : List Elem) : Prop :=
  ∀ a ∈ q, ∀ b ∈ q, a.1 = b.1 →
    ∀ da db, Root fin a da → Root fin b db → db ≤ da + 1

/-- Queue invariant X: an element strictly lighter than `b` ends at most one
level deeper than `b` whenever `b` is strictly lighter than the coming merge
of the two front elements. -/
def InvX (fin : Elem) : List Elem → Prop
  | q0 :: q1 :: t =>
    ∀ a ∈ q0 :: q1 :: t, ∀ b ∈ q0 :: q1 :: t,
      a.1 < b.1 → b.1 < q0.1 + q1.1 →
      ∀ da db, Root fin a da → Root fin b db → da ≤ db + 1
  | _ => True

/-- Queue invariant P2, resolving weight ties at the front: with both front
weights equal to w, an element strictly between w and 2w ends at most one
level deeper than any element of weight exactly 2w. -/
def InvP2 (fin : Elem) : List Elem → Prop
  | q0 :: q1 :: t =>
    q0.1 = q1.1 →
    ∀ a ∈ q0 :: q1 :: t, ∀ b ∈ q0 :: q1 :: t,
      q0.1 < a.1 → a.1 < q0.1 + q1.1 → b.1 = q0.1 + q1.1 →
      ∀ da db, Root fin a da → Root fin b db → da ≤ db + 1
  | _ => True

/-- Queue invariant P3, the equal-weight companion of P2: with both front
weights equal to w, an element of weight exactly w ends at most two levels
deeper than any element of weight exactly 2w. -/
def InvP3 (fin : Elem) : List Elem → Prop
  | q0 :: q1 :: t =>
    q0.1 = q1.1 →
    ∀ a ∈ q0 :: q1 :: t, ∀ b ∈ q0 :: q1 :: t,
      a.1 = q0.1 → b.1 = q0.1 + q1.1 →
      ∀ da db, Root fin a da → Root fin b db → da ≤ db + 2
  | _ => True

/-- The mock group used to evaluate the development on concrete inputs: the
cyclic group of order 11 presented additively, with `G = 1`, the x-coordinate
identifying a point with its negation, and parity of the smaller
representative as the y-parity test. -/
instance mockGrp : SchnorrGroup (ZMod 11) 11 where
  G := 1
  xonly p := min p.val (11 - p.val)
  evenY p := decide (2 * p.val < 11)
  xonly_neg := by decide
  evenY_neg := by decide
  smulG_eq_zero := by decide

/-- A concrete challenge-hash stand-in used for witnesses over the mock
group. -/
def wchal : ℕ → ℕ → ℕ → ZMod 11 := fun a b c => (a : ZMod 11) + b + c

/-- A concrete nonce-hash stand-in used for witnesses over the mock group. -/
def wnonce : ZMod 11 → ℕ → ZMod 11 := fun x m => x + (m : ZMod 11) + 3


/-- A concrete sha256 stand-in used for witnesses. -/
def wsha : Bytes → Bytes := fun m => m

/-- A concrete tagged-hash stand-in (collision-free in its message) used for
witnesses. -/
def wtagged : Bytes → Bytes → Bytes := fun _ m => m

/-- A concrete 32-byte tagged-hash stand-in used for TapTree witnesses. -/
def wh32 : Bytes → Bytes → Bytes :=
  fun tg m => List.replicate 32 ((m.sum + tg.length) % 256)

/-- A concrete single-byte tagged-hash stand-in used for the concrete
TapTree counterexample computations. -/
def exHash : Bytes → Bytes → Bytes :=
  fun tg m => [(m.foldl (fun a b => a * 31 + b) tg.length) % 251]

/-- The five pay-to-pubkey tapleaves of Examples 2.5.1 and 2.5.2, with
distinct one-byte scripts standing in for the five public-key scripts. -/
def leafA : TapNode := .tleaf 192 [0]

/-- Second of the five example tapleaves. -/
def leafB : TapNode := .tleaf 192 [1]

/-- Third of the five example tapleaves. -/
def leafC : TapNode := .tleaf 192 [2]

/-- Fourth of the five example tapleaves. -/
def leafD : TapNode := .tleaf 192 [3]

/-- Fifth of the five example tapleaves. -/
def leafE : TapNode := .tleaf 192 [4]

/-- The tree that the Huffman constructor actually produces from the five
example leaves with weights [5,4,3,2,1] under the concrete hash stand-in. -/
def exTree : TapNode :=
  .tbranch (.tbranch leafA leafB) (.tbranch (.tbranch leafD leafE) leafC)

/-- A concrete key-set hash stand-in used for witnesses over the mock
group. -/
def wkeyhash : List (ZMod 11) → ZMod 11 → ZMod 11 := fun _ p => p + 1

end TaprootWS

namespace TaprootWS

open SchnorrGroup

section GroupThms

variable {P : Type} {N : ℕ} [AddCommGroup P] [Module (ZMod N) P] [SchnorrGroup P N]

open SchnorrGroup

/-- C4: point-tweaking agrees with scalar-tweaking, `(x+t)·G = x·G + t·G`,
and a Schnorr signature made with the tweaked private key `x+t` verifies
against the tweaked public key `(x+t)·G` for any message. -/
theorem tweaked_keypair_sign_verify (chal : ℕ → ℕ → ℕ → ZMod N)
    (nonceh : ZMod N → ℕ → ZMod N) (x t : ZMod N) (m : ℕ)
    (hx : x ≠ 0) (ht : t ≠ 0) (hk : nonceh (x + t) m ≠ 0) :
    tweak_add (x • (G : P)) t = (x + t) • (G : P) ∧
    verify_schnorr chal ((x + t) • (G : P))
      (sign_schnorr (P := P) chal nonceh (x + t) m) m = true := by
  constructor
  · rw [tweak_add, add_smul]
  · set k := nonceh (x + t) m with hkdef
    have hR : k • (G : P) ≠ 0 := fun h => hk (smulG_eq_zero k h)
    unfold verify_schnorr sign_schnorr
    simp only
    have hv : ∀ k1 : ZMod N,
        (k1 + chal (xonly (k • (G : P))) (xonly ((x + t) • (G : P))) m * (x + t)) • (G : P)
          - chal (xonly (k • (G : P))) (xonly ((x + t) • (G : P))) m • ((x + t) • (G : P))
          = k1 • (G : P) := by
      intro k1
      rw [add_smul, smul_smul]
      abel
    by_cases hev : evenY (k • (G : P)) = true
    · simp only [hev, if_true, hv k]
      simp [hev]
    · have hodd : evenY (k • (G : P)) = false := by
        simpa using hev
      have hev2 : evenY (-(k • (G : P))) = true := by
        rw [evenY_neg _ hR, hodd]
        rfl
      simp only [hodd, if_false, Bool.false_eq_true, hv (-k), neg_smul]
      simp [hev2, xonly_neg]

/-- C5: under the raw tweak policy the recomputed key `x2 = x − t2 + t`
satisfies `x2·G + t2·G = x·G + t·G`, so the tweaked key appears to commit to
the modified commitment `t2` as well as to `t`. -/
theorem raw_tweak_forgery (x t t2 : ZMod N) (hne : t ≠ t2) :
    tweak_add (example_2_2_4_x2 x t t2 • (G : P)) t2 = tweak_add (x • (G : P)) t ∧
    example_2_2_4_x2 x t t2 • (G : P) + t2 • (G : P) = x • (G : P) + t • (G : P) := by
  have h : example_2_2_4_x2 x t t2 • (G : P) + t2 • (G : P)
      = x • (G : P) + t • (G : P) := by
    rw [example_2_2_4_x2, add_smul, sub_smul]
    abel
  exact ⟨by rw [tweak_add, tweak_add]; exact h, h⟩

end GroupThms

/-- Witness for C4 over the order-11 mock group at `x = 1`, `t = 2`, `m = 0`. -/
theorem tweaked_keypair_sign_verify_witness :
    ((1 : ZMod 11) ≠ 0) ∧ ((2 : ZMod 11) ≠ 0) ∧ (wnonce (1 + 2) 0 ≠ 0) ∧
    (tweak_add ((1 : ZMod 11) • (G : ZMod 11)) 2 = ((1 : ZMod 11) + 2) • (G : ZMod 11) ∧
      verify_schnorr wchal (((1 : ZMod 11) + 2) • (G : ZMod 11))
        (sign_schnorr (P := ZMod 11) wchal wnonce ((1 : ZMod 11) + 2) 0) 0 = true) :=
  ⟨by decide, by decide, by decide,
    tweaked_keypair_sign_verify wchal wnonce 1 2 0 (by decide) (by decide) (by decide)⟩

/-- Witness for C5 over the order-11 mock group at `x = 5`, `t = 3`, `t2 = 7`. -/
theorem raw_tweak_forgery_witness :
    ((3 : ZMod 11) ≠ 7) ∧
    (tweak_add (example_2_2_4_x2 (5 : ZMod 11) 3 7 • (G : ZMod 11)) 7
        = tweak_add ((5 : ZMod 11) • (G : ZMod 11)) 3 ∧
      example_2_2_4_x2 (5 : ZMod 11) 3 7 • (G : ZMod 11) + (7 : ZMod 11) • (G : ZMod 11)
        = (5 : ZMod 11) • (G : ZMod 11) + (3 : ZMod 11) • (G : ZMod 11)) :=
  ⟨by decide, raw_tweak_forgery 5 3 7 (by decide)⟩


theorem sum_smul_list {P : Type} {N : ℕ} [AddCommGroup P] [Module (ZMod N) P]
    (l : List (ZMod N)) (g : P) :
    l.sum • g = (l.map (fun a => a • g)).sum := by
  induction l with
  | nil => simp
  | cons a l ih => simp [add_smul, ih]

theorem sum_map_neg {N : ℕ} (l : List (ZMod N)) :
    (l.map (fun a => -a)).sum = -l.sum := by
  induction l with
  | nil => simp
  | cons a l ih => simp [ih]; abel

theorem zip_sum_eq {N : ℕ} (e : ZMod N) (l1 l2 : List (ZMod N))
    (h : l1.length = l2.length) :
    ((l1.zip l2).map (fun p => p.1 + e * p.2)).sum = l1.sum + e * l2.sum := by
  induction l1 generalizing l2 with
  | nil =>
    cases l2 with
    | nil => simp
    | cons b l2 => simp at h
  | cons a l1 ih =>
    cases l2 with
    | nil => simp at h
    | cons b l2 =>
      simp only [List.zip_cons_cons, List.map_cons, List.sum_cons, List.length_cons] at h ⊢
      rw [ih l2 (by omega)]
      ring

section C1Thms

variable {P : Type} {N : ℕ} [AddCommGroup P] [Module (ZMod N) P] [SchnorrGroup P N]

theorem mapM_sign_eq (chal : ℕ → ℕ → ℕ → ZMod N) (r q : P) (m : ℕ)
    (l : List (ZMod N × ZMod N)) (h : ∀ p ∈ l, p.1 ≠ 0 ∧ p.2 ≠ 0) :
    l.mapM (fun kx => sign_musig chal kx.2 kx.1 r q m)
      = some (l.map (fun kx => kx.1 + musig_digest chal r q m * kx.2)) := by
  induction l with
  | nil => rfl
  | cons a l ih =>
    have ha := h a (by simp)
    have hl : ∀ p ∈ l, p.1 ≠ 0 ∧ p.2 ≠ 0 := fun p hp => h p (by simp [hp])
    rw [List.mapM_cons, ih hl]
    simp [sign_musig, ha.1, ha.2]

theorem verify_schnorr_intro (chal : ℕ → ℕ → ℕ → ZMod N) (q v : P) (r : ℕ)
    (s : ZMod N) (m : ℕ)
    (hG : s • (G : P) - chal r (xonly q) m • q = v)
    (hev : evenY v = true) (hx : xonly v = r) :
    verify_schnorr chal q (r, s) m = true := by
  unfold verify_schnorr
  simp only
  rw [hG, hev, hx]
  simp

/-- C1: a tweaked MuSig session — partial signatures aggregated with a single
correction term `e·t` — produces a signature that passes plain single-key
Schnorr verification against the tweaked aggregate key, for any participant
set, message and tweak. -/
theorem musig_tweak_session_verifies (chal : ℕ → ℕ → ℕ → ZMod N)
    (keyhash : List P → P → ZMod N) (xs : List (ZMod N)) (t : ZMod N)
    (ks : List (ZMod N)) (m : ℕ)
    (hlen : xs.length = ks.length)
    (hxc : ∀ x ∈ xs, x * keyhash (musig_pks (P := P) xs) (x • (G : P)) ≠ 0)
    (hks : ∀ k ∈ ks, k ≠ 0)
    (hq : (generate_musig_key keyhash (musig_pks (P := P) xs)).2 ≠ 0)
    (hr : (ks.map (fun k => k • (G : P))).sum ≠ 0) :
    ∃ sig, musig_session (P := P) chal keyhash xs t ks m = some sig ∧
      verify_schnorr chal
        (tweak_add (evenKey (generate_musig_key keyhash (musig_pks (P := P) xs)).2) t)
        sig m = true := by
  classical
  set pks : List P := musig_pks (P := P) xs with hpks
  set q0 : P := (generate_musig_key keyhash pks).2 with hq0
  set qe : P := evenKey q0 with hqe
  set qt : P := tweak_add qe t with hqt
  set r0 : P := (ks.map (fun k => k • (G : P))).sum with hr0
  set e : ZMod N := musig_digest chal r0 qt m with hedef
  set xcs0 : List (ZMod N) := xs.map (fun x => x * keyhash pks (x • (G : P))) with hxcs0
  set xcs : List (ZMod N) := if evenY q0 then xcs0 else xcs0.map (fun y => -y) with hxcs
  set ks1 : List (ZMod N) := if !evenY r0 then ks.map (fun k => -k) else ks with hks1
  have hxcs_ne : ∀ y ∈ xcs, y ≠ 0 := by
    intro y hy
    rw [hxcs] at hy
    by_cases hev : evenY q0 = true
    · rw [if_pos hev, hxcs0] at hy
      obtain ⟨x, hx, rfl⟩ := List.mem_map.mp hy
      exact hxc x hx
    · rw [if_neg hev, hxcs0] at hy
      obtain ⟨z, hz, rfl⟩ := List.mem_map.mp hy
      obtain ⟨x, hx, rfl⟩ := List.mem_map.mp hz
      exact neg_ne_zero.mpr (hxc x hx)
  have hks1_ne : ∀ k ∈ ks1, k ≠ 0 := by
    intro k hk
    rw [hks1] at hk
    by_cases hev : (!evenY r0) = true
    · rw [if_pos hev] at hk
      obtain ⟨z, hz, rfl⟩ := List.mem_map.mp hk
      exact neg_ne_zero.mpr (hks z hz)
    · rw [if_neg hev] at hk
      exact hks k hk
  have hzip : ∀ p ∈ ks1.zip xcs, p.1 ≠ 0 ∧ p.2 ≠ 0 := by
    intro p hp
    rcases p with ⟨k, y⟩
    have := List.of_mem_zip hp
    exact ⟨hks1_ne _ this.1, hxcs_ne _ this.2⟩
  have hlen1 : ks1.length = xcs.length := by
    rw [hks1, hxcs, hxcs0]
    by_cases h1 : (!evenY r0) = true <;> by_cases h2 : evenY q0 = true <;>
      simp [h1, h2, hlen]
  have hmapm := mapM_sign_eq chal r0 qt m (ks1.zip xcs) hzip
  set ss : List (ZMod N) :=
    (ks1.zip xcs).map (fun kx => kx.1 + musig_digest chal r0 qt m * kx.2) with hss
  have hsum : ss.sum = ks1.sum + e * xcs.sum := by
    rw [hss, ← hedef]
    exact zip_sum_eq e ks1 xcs hlen1
  have hxcs0_sum : xcs0.sum • (G : P) = q0 := by
    rw [sum_smul_list, hxcs0, List.map_map, hq0]
    show _ = (generate_musig_key keyhash pks).2
    rw [generate_musig_key, hpks]
    show _ = ((xs.map fun x => x • (G : P)).map
      (fun p => keyhash pks p • p)).sum
    rw [List.map_map]
    congr 1
    refine List.map_congr_left ?_
    intro x hx
    show (x * keyhash pks (x • (G : P))) • (G : P)
      = keyhash pks (x • (G : P)) • x • (G : P)
    rw [smul_smul, mul_comm]
  have hxcs_sum : xcs.sum • (G : P) = qe := by
    rw [hxcs, hqe, evenKey]
    by_cases hev : evenY q0 = true
    · rw [if_pos hev, if_pos hev, hxcs0_sum]
    · rw [if_neg hev, if_neg hev, sum_map_neg, neg_smul, hxcs0_sum]
  have hr0_smul : ks.sum • (G : P) = r0 := by
    rw [sum_smul_list, hr0]
  set r1 : P := ks1.sum • (G : P) with hr1
  have hks1_sum : r1 = (if evenY r0 then r0 else -r0) := by
    rw [hr1, hks1]
    by_cases hev : evenY r0 = true
    · simp only [hev, Bool.not_true, if_false, Bool.false_eq_true, if_true]
      exact hr0_smul
    · have : evenY r0 = false := by simpa using hev
      simp only [this, Bool.not_false, if_true, Bool.false_eq_true, if_false]
      rw [sum_map_neg, neg_smul, hr0_smul]
  have hr1ev : evenY r1 = true := by
    rw [hks1_sum]
    by_cases hev : evenY r0 = true
    · rw [if_pos hev]; exact hev
    · have h0 : evenY r0 = false := by simpa using hev
      rw [if_neg hev, evenY_neg _ hr, h0]
      rfl
  have hr1x : xonly r1 = xonly r0 := by
    rw [hks1_sum]
    by_cases hev : evenY r0 = true
    · rw [if_pos hev]
    · rw [if_neg hev, xonly_neg]
  set stot : ZMod N := ss.sum + e * t with hstot
  refine ⟨(xonly r0, stot), ?_, ?_⟩
  · rw [musig_session]
    simp only [← hpks, ← hq0, ← hxcs0, aggregate_schnorr_nonces]
    rw [← hqe]
    show (match ((if !evenY r0 then ks.map (fun k => -k) else ks).zip
        (if evenY q0 then xcs0 else xcs0.map (fun y => -y))).mapM
          (fun kx => sign_musig chal kx.2 kx.1 r0 qt m) with
      | none => none
      | some ss => some (aggregate_musig_signatures
          (ss ++ [musig_digest chal r0 qt m * t]) r0)) = _
    rw [← hks1, ← hxcs, hmapm]
    show some (aggregate_musig_signatures (ss ++ [e * t]) r0) = _
    rw [aggregate_musig_signatures, List.sum_append]
    simp [hstot]
  · refine verify_schnorr_intro chal qt r1 (xonly r0) stot m ?_ hr1ev hr1x
    have hchal : chal (xonly r0) (xonly qt) m = e := by rw [hedef]; rfl
    rw [hchal, hstot, hsum, hqt, tweak_add]
    rw [add_smul, add_smul, mul_smul, mul_smul, hxcs_sum, smul_add, ← hr1]
    abel

end C1Thms

/-- Witness for C1 over the order-11 mock group with two signers. -/
theorem musig_tweak_session_verifies_witness :
    (([1, 2] : List (ZMod 11)).length = ([3, 5] : List (ZMod 11)).length) ∧
    (∀ x ∈ ([1, 2] : List (ZMod 11)),
      x * wkeyhash (musig_pks (P := ZMod 11) [1, 2]) (x • (G : ZMod 11)) ≠ 0) ∧
    (∀ k ∈ ([3, 5] : List (ZMod 11)), k ≠ 0) ∧
    ((generate_musig_key wkeyhash (musig_pks (P := ZMod 11) [1, 2])).2 ≠ 0) ∧
    ((([3, 5] : List (ZMod 11)).map (fun k => k • (G : ZMod 11))).sum ≠ 0) ∧
    (∃ sig, musig_session (P := ZMod 11) wchal wkeyhash [1, 2] 4 [3, 5] 0 = some sig ∧
      verify_schnorr wchal
        (tweak_add (evenKey (generate_musig_key wkeyhash (musig_pks (P := ZMod 11) [1, 2])).2) 4)
        sig 0 = true) :=
  ⟨by decide, by decide, by decide, by decide, by decide,
    musig_tweak_session_verifies wchal wkeyhash [1, 2] 4 [3, 5] 0
      (by decide) (by decide) (by decide) (by decide) (by decide)⟩

/-- C2 failing-input evaluation: in Exercise 2.1.14 the aggregate nonce of
the nonces 2 and 4 over the mock group has odd y, so the negation branch
runs and hits the undefined `nounce1`/`nounce2` names; the step errors
instead of completing. -/
theorem nonce_negation_name_error :
    (aggregate_schnorr_nonces [(2 : ZMod 11) • (G : ZMod 11), (4 : ZMod 11) • (G : ZMod 11)]).2 = true ∧
    exercise_2_1_14_nonce_step (P := ZMod 11) 2 4 = none := by
  decide

/-- C3 failing-input evaluation: in Example 3.1.2 the challenge-scaled
public key of participant B is computed from participant A's key
(`main_pubkeyA.mul(c_map[main_pubkeyB])`), so it does not match the
challenge-scaled private key of participant B times `G`, while participant
A's pair stays in sync. -/
theorem challenge_scaled_pubkey_desync :
    ((example_3_1_2 (P := ZMod 11) (fun _ p => p) 1 2 3).pA
        = (example_3_1_2 (P := ZMod 11) (fun _ p => p) 1 2 3).xA • (G : ZMod 11)) ∧
    ((example_3_1_2 (P := ZMod 11) (fun _ p => p) 1 2 3).pB
        ≠ (example_3_1_2 (P := ZMod 11) (fun _ p => p) 1 2 3).xB • (G : ZMod 11)) := by
  decide



theorem natBytes32_length (n : ℕ) : (natBytes32 n).length = 32 := by
  simp [natBytes32]

theorem range_digits_mod (k a b : ℕ)
    (h : (List.range k).map (fun i => a / 256 ^ i % 256)
       = (List.range k).map (fun i => b / 256 ^ i % 256)) :
    a % 256 ^ k = b % 256 ^ k := by
  induction k with
  | zero => simp [Nat.mod_one]
  | succ k ih =>
    rw [List.range_succ, List.map_append, List.map_append] at h
    obtain ⟨h1, h2⟩ := List.append_inj h (by simp)
    have hd : a / 256 ^ k % 256 = b / 256 ^ k % 256 := by simpa using h2
    rw [Nat.mod_pow_succ, Nat.mod_pow_succ, ih h1, hd]

theorem natBytes32_inj {a b : ℕ} (ha : a < 256 ^ 32) (hb : b < 256 ^ 32)
    (h : natBytes32 a = natBytes32 b) : a = b := by
  rw [natBytes32, natBytes32] at h
  have := range_digits_mod 32 a b (List.reverse_injective h)
  rwa [Nat.mod_eq_of_lt ha, Nat.mod_eq_of_lt hb] at this

section C10Thms

variable {P : Type} {N : ℕ} [AddCommGroup P] [Module (ZMod N) P] [SchnorrGroup P N]

/-- C10: the raw tweak of Example 2.2.3 is a function of the contract text
alone — identical for any two key pairs — while the pay-to-contract tweak of
Example 2.2.5 hashes the public key together with the contract, so its hash
input (and, for a tagged hash that does not collide, the tweak itself)
differs between keys with different x-only encodings. -/
theorem raw_tweak_independent_of_key (sha : Bytes → Bytes)
    (tagged : Bytes → Bytes → Bytes) (c : Bytes) (p q : P)
    (hp : xonly p < 256 ^ 32) (hq : xonly q < 256 ^ 32)
    (hne : xonly p ≠ xonly q)
    (hcoll : Function.Injective (tagged tapTweakTag)) :
    (∀ k1 k2 : ZMod N × P, insecure_tweak sha k1 c = insecure_tweak sha k2 c) ∧
    p2c_tweak_input p c ≠ p2c_tweak_input q c ∧
    p2c_tweak tagged p c ≠ p2c_tweak tagged q c := by
  have hin : p2c_tweak_input p c ≠ p2c_tweak_input q c := by
    intro h
    have heq : natBytes32 (xonly p) = natBytes32 (xonly q) :=
      List.append_inj_left h (by rw [natBytes32_length, natBytes32_length])
    exact hne (natBytes32_inj hp hq heq)
  exact ⟨fun k1 k2 => rfl, hin, fun h => hin (hcoll h)⟩

end C10Thms

/-- Witness for C10 over the order-11 mock group at the keys 1 and 2. -/
theorem raw_tweak_independent_of_key_witness :
    (xonly (1 : ZMod 11) < 256 ^ 32) ∧ (xonly (2 : ZMod 11) < 256 ^ 32) ∧
    (xonly (1 : ZMod 11) ≠ xonly (2 : ZMod 11)) ∧
    (Function.Injective (wtagged tapTweakTag)) ∧
    ((∀ k1 k2 : ZMod 11 × ZMod 11,
        insecure_tweak wsha k1 [7] = insecure_tweak wsha k2 [7]) ∧
      p2c_tweak_input (1 : ZMod 11) [7] ≠ p2c_tweak_input (2 : ZMod 11) [7] ∧
      p2c_tweak wtagged (1 : ZMod 11) [7] ≠ p2c_tweak wtagged (2 : ZMod 11) [7]) :=
  ⟨by decide, by decide, by decide, fun a b h => h,
    raw_tweak_independent_of_key wsha wtagged [7] 1 2 (by decide) (by decide)
      (by decide) (fun a b h => h)⟩

theorem tapHash_length (h : Bytes → Bytes → Bytes)
    (hlen : ∀ tg m, (h tg m).length = 32) (t : TapNode) :
    (tapHash h t).length = 32 := by
  cases t with
  | tleaf v s => exact hlen _ _
  | tbranch l r =>
    rw [tapHash]
    split <;> exact hlen _ _

theorem ctrlWalk_scripts (h : Bytes → Bytes → Bytes) (t : TapNode) :
    (ctrlWalk h t).map Prod.fst = leafScripts t := by
  induction t with
  | tleaf v s => rfl
  | tbranch l r ihl ihr =>
    rw [ctrlWalk, leafScripts, List.map_append, List.map_map, List.map_map,
      ← ihl, ← ihr]
    rfl

theorem leafDepth_eq_none_of_not_mem (s : Bytes) (t : TapNode)
    (hs : s ∉ leafScripts t) : leafDepth s t = none := by
  induction t with
  | tleaf v s2 =>
    rw [leafDepth]
    rw [leafScripts] at hs
    simp only [List.mem_singleton] at hs
    rw [if_neg (fun hss => hs hss.symm)]
  | tbranch l r ihl ihr =>
    rw [leafScripts] at hs
    simp only [List.mem_append] at hs
    push_neg at hs
    rw [leafDepth, ihl hs.1, ihr hs.2]

theorem ctrlWalk_spec (h : Bytes → Bytes → Bytes)
    (hlen : ∀ tg m, (h tg m).length = 32) (t : TapNode)
    (hnd : (leafScripts t).Nodup) :
    ∀ p ∈ ctrlWalk h t, leafDepth p.1 t = some p.2.length ∧
      ∀ x ∈ p.2, x.length = 32 := by
  induction t with
  | tleaf v s =>
    intro p hp
    rw [ctrlWalk] at hp
    simp only [List.mem_singleton] at hp
    subst hp
    refine ⟨?_, by simp⟩
    rw [leafDepth, if_pos rfl]
    rfl
  | tbranch l r ihl ihr =>
    have hndl : (leafScripts l).Nodup := by
      rw [leafScripts] at hnd
      exact (List.nodup_append.mp hnd).1
    have hndr : (leafScripts r).Nodup := by
      rw [leafScripts] at hnd
      exact (List.nodup_append.mp hnd).2.1
    have hdisj : ∀ s ∈ leafScripts r, s ∉ leafScripts l := by
      rw [leafScripts] at hnd
      intro s hsr hsl
      exact (List.nodup_append.mp hnd).2.2 hsl hsr
    intro p hp
    rw [ctrlWalk] at hp
    rcases List.mem_append.mp hp with hleft | hright
    · obtain ⟨q, hq, rfl⟩ := List.mem_map.mp hleft
      obtain ⟨hdep, hlens⟩ := ihl hndl q hq
      constructor
      · rw [leafDepth]
        simp only [hdep]
        simp
      · intro x hx
        rcases List.mem_append.mp hx with hx1 | hx2
        · exact hlens x hx1
        · simp only [List.mem_singleton] at hx2
          subst hx2
          exact tapHash_length h hlen r
    · obtain ⟨q, hq, rfl⟩ := List.mem_map.mp hright
      obtain ⟨hdep, hlens⟩ := ihr hndr q hq
      have hqr : q.1 ∈ leafScripts r := by
        rw [← ctrlWalk_scripts h r]
        exact List.mem_map.mpr ⟨q, hq, rfl⟩
      have hnone : leafDepth q.1 l = none :=
        leafDepth_eq_none_of_not_mem _ _ (hdisj _ hqr)
      constructor
      · rw [leafDepth]
        simp only [hnone, hdep]
        simp
      · intro x hx
        rcases List.mem_append.mp hx with hx1 | hx2
        · exact hlens x hx1
        · simp only [List.mem_singleton] at hx2
          subst hx2
          exact tapHash_length h hlen l

theorem flatten_length_32 (L : List Bytes) (h : ∀ x ∈ L, x.length = 32) :
    L.flatten.length = 32 * L.length := by
  induction L with
  | nil => simp
  | cons a L ih =>
    rw [List.flatten_cons, List.length_append, h a (by simp),
      ih (fun x hx => h x (by simp [hx])), List.length_cons]
    ring

/-- C9: every control block in the map returned by `construct()` has length
exactly `33 + 32·d` bytes, where `d` is the depth of its leaf in the tree. -/
theorem control_block_length (h : Bytes → Bytes → Bytes)
    (hlen32 : ∀ tg m, (h tg m).length = 32) (tt : TapTree)
    (hkey : tt.key.length = 32) (hnd : (leafScripts tt.root).Nodup) :
    ∀ p ∈ (construct h tt).2, ∃ d, leafDepth p.1 tt.root = some d ∧
      p.2.length = 33 + 32 * d := by
  intro p hp
  rw [construct] at hp
  obtain ⟨q, hq, rfl⟩ := List.mem_map.mp hp
  obtain ⟨hdep, hlens⟩ := ctrlWalk_spec h hlen32 tt.root hnd q hq
  refine ⟨q.2.length, hdep, ?_⟩
  simp only [List.length_cons, List.length_append]
  rw [hkey, flatten_length_32 q.2 hlens]
  ring

/-- Witness for C9 on a two-leaf tree with 32-byte hashes and key. -/
theorem control_block_length_witness :
    ((∀ tg m, (wh32 tg m).length = 32)) ∧
    ((List.replicate 32 7 : Bytes).length = 32) ∧
    ((leafScripts (TapNode.tbranch leafA leafB)).Nodup) ∧
    (∀ p ∈ (construct wh32 ⟨List.replicate 32 7, TapNode.tbranch leafA leafB⟩).2,
      ∃ d, leafDepth p.1 (TapNode.tbranch leafA leafB) = some d ∧
        p.2.length = 33 + 32 * d) :=
  ⟨fun tg m => by simp [wh32], by decide, by decide,
    control_block_length wh32 (fun tg m => by simp [wh32])
      ⟨List.replicate 32 7, TapNode.tbranch leafA leafB⟩ (by decide) (by decide)⟩



theorem bytesLe_total : ∀ a b : Bytes, bytesLe a b = true ∨ bytesLe b a = true := by
  intro a
  induction a with
  | nil => intro b; left; rfl
  | cons x as ih =>
    intro b
    cases b with
    | nil => right; rfl
    | cons y bs =>
      rw [bytesLe, bytesLe]
      by_cases hxy : x < y
      · left; rw [if_pos hxy]
      · by_cases hyx : y < x
        · right; rw [if_pos hyx]
        · rw [if_neg hxy, if_neg hyx, if_neg hyx, if_neg hxy]
          exact ih bs

theorem bytesLe_antisymm : ∀ a b : Bytes,
    bytesLe a b = true → bytesLe b a = true → a = b := by
  intro a
  induction a with
  | nil =>
    intro b hab hba
    cases b with
    | nil => rfl
    | cons y bs => exact absurd hba (by rw [bytesLe]; simp)
  | cons x as ih =>
    intro b hab hba
    cases b with
    | nil => exact absurd hab (by rw [bytesLe]; simp)
    | cons y bs =>
      rw [bytesLe] at hab hba
      by_cases hxy : x < y
      · rw [if_neg (by omega : ¬y < x), if_pos hxy] at hba
        exact absurd hba (by simp)
      · by_cases hyx : y < x
        · rw [if_neg hxy, if_pos hyx] at hab
          exact absurd hab (by simp)
        · rw [if_neg hxy, if_neg hyx] at hab
          rw [if_neg hyx, if_neg hxy] at hba
          have hx : x = y := by omega
          rw [hx, ih bs hab hba]

theorem bytesLe_trans : ∀ a b c : Bytes,
    bytesLe a b = true → bytesLe b c = true → bytesLe a c = true := by
  intro a
  induction a with
  | nil => intro b c hab hbc; rfl
  | cons x as ih =>
    intro b c hab hbc
    cases b with
    | nil => exact absurd hab (by rw [bytesLe]; simp)
    | cons y bs =>
      cases c with
      | nil => exact absurd hbc (by rw [bytesLe]; simp)
      | cons z cs =>
        rw [bytesLe] at hab hbc ⊢
        by_cases hxy : x < y <;> by_cases hyz : y < z
        · rw [if_pos (by omega : x < z)]
        · rw [if_neg hyz] at hbc
          by_cases hzy : z < y
          · rw [if_pos hzy] at hbc
            exact absurd hbc (by simp)
          · have : y = z := by omega
            rw [if_pos (by omega : x < z)]
        · rw [if_neg hxy] at hab
          by_cases hyx : y < x
          · rw [if_pos hyx] at hab
            exact absurd hab (by simp)
          · have : x = y := by omega
            rw [if_pos (by omega : x < z)]
        · rw [if_neg hxy] at hab
          rw [if_neg hyz] at hbc
          by_cases hyx : y < x
          · exact absurd hab (by rw [if_pos hyx]; simp)
          · by_cases hzy : z < y
            · exact absurd hbc (by rw [if_pos hzy]; simp)
            · rw [if_neg hyx] at hab
              rw [if_neg hzy] at hbc
              rw [if_neg (by omega : ¬x < z), if_neg (by omega : ¬z < x)]
              exact ih bs cs hab hbc

theorem keyLe_total (h : Bytes → Bytes → Bytes) (a b : ℕ × TapNode) :
    keyLe h a b = true ∨ keyLe h b a = true := by
  rw [keyLe, keyLe]
  by_cases hab : a.1 < b.1
  · left; rw [if_pos hab]
  · by_cases hba : b.1 < a.1
    · right; rw [if_pos hba]
    · rw [if_neg hab, if_neg hba, if_neg hba, if_neg hab]
      exact bytesLe_total _ _

theorem keyLe_trans (h : Bytes → Bytes → Bytes) (a b c : ℕ × TapNode)
    (hab : keyLe h a b = true) (hbc : keyLe h b c = true) :
    keyLe h a c = true := by
  rw [keyLe] at hab hbc ⊢
  by_cases h1 : a.1 < b.1 <;> by_cases h2 : b.1 < c.1
  · rw [if_pos (by omega : a.1 < c.1)]
  · rw [if_neg h2] at hbc
    by_cases h3 : c.1 < b.1
    · rw [if_pos h3] at hbc
      exact absurd hbc (by simp)
    · rw [if_pos (by omega : a.1 < c.1)]
  · rw [if_neg h1] at hab
    by_cases h3 : b.1 < a.1
    · rw [if_pos h3] at hab
      exact absurd hab (by simp)
    · rw [if_pos (by omega : a.1 < c.1)]
  · rw [if_neg h1] at hab
    rw [if_neg h2] at hbc
    by_cases h3 : b.1 < a.1
    · exact absurd hab (by rw [if_pos h3]; simp)
    · by_cases h4 : c.1 < b.1
      · exact absurd hbc (by rw [if_pos h4]; simp)
      · rw [if_neg h3] at hab
        rw [if_neg h4] at hbc
        rw [if_neg (by omega : ¬a.1 < c.1), if_neg (by omega : ¬c.1 < a.1)]
        exact bytesLe_trans _ _ _ hab hbc

theorem keyLe_antisymm (h : Bytes → Bytes → Bytes) (a b : ℕ × TapNode)
    (hab : keyLe h a b = true) (hba : keyLe h b a = true) :
    a.1 = b.1 ∧ tapHash h a.2 = tapHash h b.2 := by
  rw [keyLe] at hab hba
  by_cases h1 : a.1 < b.1
  · rw [if_neg (by omega : ¬b.1 < a.1), if_pos h1] at hba
    exact absurd hba (by simp)
  · by_cases h2 : b.1 < a.1
    · rw [if_neg h1, if_pos h2] at hab
      exact absurd hab (by simp)
    · rw [if_neg h1, if_neg h2] at hab
      rw [if_neg h2, if_neg h1] at hba
      exact ⟨by omega, bytesLe_antisymm _ _ hab hba⟩

theorem qInsert_perm (h : Bytes → Bytes → Bytes) (e : ℕ × TapNode) :
    ∀ l : List (ℕ × TapNode), (qInsert h e l).Perm (e :: l) := by
  intro l
  induction l with
  | nil => rfl
  | cons x xs ih =>
    rw [qInsert]
    by_cases hc : keyLe h e x = true
    · rw [if_pos hc]
    · rw [if_neg hc]
      exact (ih.cons x).trans (List.Perm.swap e x xs)

theorem qSort_perm (h : Bytes → Bytes → Bytes) :
    ∀ l : List (ℕ × TapNode), (qSort h l).Perm l := by
  intro l
  induction l with
  | nil => rfl
  | cons x xs ih => exact (qInsert_perm h x (qSort h xs)).trans (ih.cons x)

theorem qInsert_mem (h : Bytes → Bytes → Bytes) (e y : ℕ × TapNode) :
    ∀ l, y ∈ qInsert h e l → y = e ∨ y ∈ l := by
  intro l hy
  have := (qInsert_perm h e l).mem_iff.mp hy
  simpa using this

theorem qInsert_pairwise (h : Bytes → Bytes → Bytes) (e : ℕ × TapNode) :
    ∀ l, l.Pairwise (fun a b => keyLe h a b = true) →
      (qInsert h e l).Pairwise (fun a b => keyLe h a b = true) := by
  intro l
  induction l with
  | nil => intro _; simp [qInsert]
  | cons x xs ih =>
    intro hp
    rw [List.pairwise_cons] at hp
    rw [qInsert]
    by_cases hc : keyLe h e x = true
    · rw [if_pos hc]
      refine List.Pairwise.cons ?_ (List.Pairwise.cons hp.1 hp.2)
      intro y hy
      rcases List.mem_cons.mp hy with rfl | hy2
      · exact hc
      · exact keyLe_trans h e x y hc (hp.1 y hy2)
    · rw [if_neg hc]
      refine List.Pairwise.cons ?_ (ih hp.2)
      intro y hy
      rcases qInsert_mem h e y xs hy with hye | hy2
      · rw [hye]
        rcases keyLe_total h e x with he | he
        · exact absurd he hc
        · exact he
      · exact hp.1 y hy2

theorem qSort_pairwise (h : Bytes → Bytes → Bytes) :
    ∀ l : List (ℕ × TapNode),
      (qSort h l).Pairwise (fun a b => keyLe h a b = true) := by
  intro l
  induction l with
  | nil => simp [qSort]
  | cons x xs ih => exact qInsert_pairwise h x _ ih

theorem sorted_perm_eq (h : Bytes → Bytes → Bytes) :
    ∀ l1 l2 : List (ℕ × TapNode), l1.Perm l2 →
      l1.Pairwise (fun a b => keyLe h a b = true) →
      l2.Pairwise (fun a b => keyLe h a b = true) →
      (l1.map (fun e => (e.1, tapHash h e.2))).Nodup →
      l1 = l2 := by
  intro l1
  induction l1 with
  | nil =>
    intro l2 hperm _ _ _
    exact hperm.nil_eq
  | cons a t1 ih =>
    intro l2 hperm hp1 hp2 hnd
    cases l2 with
    | nil => exact absurd hperm.symm.nil_eq (by simp)
    | cons b t2 =>
      by_cases hab : a = b
      · subst hab
        rw [List.pairwise_cons] at hp1 hp2
        rw [List.map_cons, List.nodup_cons] at hnd
        rw [ih t2 hperm.cons_inv hp1.2 hp2.2 hnd.2]
      · have hbmem : b ∈ a :: t1 := hperm.symm.subset (by simp)
        have hamem : a ∈ b :: t2 := hperm.subset (by simp)
        have hb1 : b ∈ t1 := by
          rcases List.mem_cons.mp hbmem with hb | hb
          · exact absurd hb.symm hab
          · exact hb
        have ha2 : a ∈ t2 := by
          rcases List.mem_cons.mp hamem with ha | ha
          · exact absurd ha hab
          · exact ha
        have hkab : keyLe h a b = true := by
          rw [List.pairwise_cons] at hp1
          exact hp1.1 b hb1
        have hkba : keyLe h b a = true := by
          rw [List.pairwise_cons] at hp2
          exact hp2.1 a ha2
        have hkeys := keyLe_antisymm h a b hkab hkba
        rw [List.map_cons, List.nodup_cons] at hnd
        exact absurd (List.mem_map.mpr ⟨b, hb1, by
          rw [← hkeys.1, ← hkeys.2]⟩) hnd.1

/-- C6: the TapBranch hash is symmetric in its children (so manually
combining branches in either order yields the same commitment), and the
Huffman constructor is deterministic under permutation of its input list:
both runs return the same tree, hence identical root tweaks and identical
control-block maps from `construct()`. -/
theorem huffman_construct_deterministic (h : Bytes → Bytes → Bytes)
    (l1 l2 : List (ℕ × TapNode)) (hperm : l1.Perm l2)
    (hnd : (l1.map (fun e => (e.1, tapHash h e.2))).Nodup) :
    (∀ a b : TapNode, tapHash h (.tbranch a b) = tapHash h (.tbranch b a)) ∧
    huffman_constructor h l1 = huffman_constructor h l2 ∧
    (∀ key r1 r2, huffman_constructor h l1 = some r1 →
      huffman_constructor h l2 = some r2 →
      construct h ⟨key, r1⟩ = construct h ⟨key, r2⟩) := by
  have hsym : ∀ a b : TapNode, tapHash h (.tbranch a b) = tapHash h (.tbranch b a) := by
    intro a b
    rw [tapHash, tapHash]
    by_cases h1 : bytesLe (tapHash h a) (tapHash h b) = true
    · by_cases h2 : bytesLe (tapHash h b) (tapHash h a) = true
      · rw [if_pos h1, if_pos h2, bytesLe_antisymm _ _ h1 h2]
      · rw [if_pos h1, if_neg h2]
    · rcases bytesLe_total (tapHash h a) (tapHash h b) with h1a | h2
      · exact absurd h1a h1
      · rw [if_neg h1, if_pos h2]
  have hsort : qSort h l1 = qSort h l2 := by
    refine sorted_perm_eq h _ _ ?_ (qSort_pairwise h l1) (qSort_pairwise h l2) ?_
    · exact (qSort_perm h l1).trans (hperm.trans (qSort_perm h l2).symm)
    · exact ((qSort_perm h l1).map _).nodup_iff.mpr hnd
  have hlen : l1.length = l2.length := hperm.length_eq
  have heq : huffman_constructor h l1 = huffman_constructor h l2 := by
    rw [huffman_constructor, huffman_constructor, hsort, hlen]
  refine ⟨hsym, heq, ?_⟩
  intro key r1 r2 h1 h2
  rw [h1] at heq
  rw [h2] at heq
  cases heq
  rfl

/-- Witness for C6 on a permuted two-leaf input list. -/
theorem huffman_construct_deterministic_witness :
    ([(5, leafA), (4, leafB)].Perm [(4, leafB), (5, leafA)]) ∧
    (([(5, leafA), (4, leafB)].map (fun e => (e.1, tapHash exHash e.2))).Nodup) ∧
    ((∀ a b : TapNode,
        tapHash exHash (.tbranch a b) = tapHash exHash (.tbranch b a)) ∧
      huffman_constructor exHash [(5, leafA), (4, leafB)]
        = huffman_constructor exHash [(4, leafB), (5, leafA)] ∧
      (∀ key r1 r2, huffman_constructor exHash [(5, leafA), (4, leafB)] = some r1 →
        huffman_constructor exHash [(4, leafB), (5, leafA)] = some r2 →
        construct exHash ⟨key, r1⟩ = construct exHash ⟨key, r2⟩)) :=
  ⟨by decide, by decide,
    huffman_construct_deterministic exHash [(5, leafA), (4, leafB)]
      [(4, leafB), (5, leafA)] (by decide) (by decide)⟩



theorem mkTapbranch_cases (h : Bytes → Bytes → Bytes) (a b : TapNode) :
    mkTapbranch h a b = .tbranch a b ∨ mkTapbranch h a b = .tbranch b a := by
  rw [mkTapbranch]
  split
  · exact Or.inl rfl
  · exact Or.inr rfl

/-- C8 counterexample: Huffman-constructing the worked five-leaf example with
weights [5,4,3,2,1] (concrete hash stand-in) puts the weight-2 and weight-1
leaves at depth 3, not at depth 4 as claimed. -/
theorem five_leaf_depth_counterexample :
    huffman_constructor exHash [(5, leafA), (4, leafB), (3, leafC), (2, leafD), (1, leafE)]
      = some exTree ∧
    leafDepth [3] exTree = some 3 ∧ leafDepth [4] exTree = some 3 ∧
    ¬ leafDepth [3] exTree = some 4 ∧ ¬ leafDepth [4] exTree = some 4 := by
  decide

/-- C8 amended: from the five example leaves with weights [5,4,3,2,1], the
Huffman constructor produces (for every tagged-hash instantiation) a tree in
which the weight-5 and weight-4 leaves are siblings at depth 2, the weight-3
leaf is at depth 2, and the weight-2 and weight-1 leaves are siblings at
depth 3 whose parent branch is the sibling of the weight-3 leaf. -/
theorem five_leaf_example_shape (h : Bytes → Bytes → Bytes) :
    ∃ r, huffman_constructor h
        [(5, leafA), (4, leafB), (3, leafC), (2, leafD), (1, leafE)] = some r ∧
      leafDepth [0] r = some 2 ∧ leafDepth [1] r = some 2 ∧
      leafDepth [2] r = some 2 ∧ leafDepth [3] r = some 3 ∧
      leafDepth [4] r = some 3 ∧
      (nodeDepth (TapNode.tbranch leafA leafB) r = some 1 ∨
        nodeDepth (TapNode.tbranch leafB leafA) r = some 1) ∧
      ((nodeDepth (TapNode.tbranch leafD leafE) r = some 2 ∧
          (nodeDepth (TapNode.tbranch leafC (TapNode.tbranch leafD leafE)) r = some 1 ∨
            nodeDepth (TapNode.tbranch (TapNode.tbranch leafD leafE) leafC) r = some 1)) ∨
        (nodeDepth (TapNode.tbranch leafE leafD) r = some 2 ∧
          (nodeDepth (TapNode.tbranch leafC (TapNode.tbranch leafE leafD)) r = some 1 ∨
            nodeDepth (TapNode.tbranch (TapNode.tbranch leafE leafD) leafC) r = some 1))) := by
  have hstart : huffman_constructor h [(5, leafA), (4, leafB), (3, leafC), (2, leafD), (1, leafE)]
      = hLoop h 4 (qInsert h (3, mkTapbranch h leafE leafD)
          [(3, leafC), (4, leafB), (5, leafA)]) := rfl
  have hqi : ∀ t : TapNode, qInsert h (3, t) [(3, leafC), (4, leafB), (5, leafA)]
      = if keyLe h (3, t) (3, leafC)
          then [(3, t), (3, leafC), (4, leafB), (5, leafA)]
          else [(3, leafC), (3, t), (4, leafB), (5, leafA)] := by
    intro t
    rw [qInsert]
    split
    · rfl
    · rfl
  have hstep2 : ∀ p q : TapNode, hLoop h 4 [(3, p), (3, q), (4, leafB), (5, leafA)]
      = hLoop h 2 (qInsert h (9, mkTapbranch h leafB leafA)
          [(6, mkTapbranch h p q)]) := fun p q => rfl
  have hstep3 : ∀ s t : TapNode, hLoop h 2 (qInsert h (9, s) [(6, t)])
      = some (mkTapbranch h t s) := fun s t => rfl
  rw [hstart, hqi]
  rcases mkTapbranch_cases h leafE leafD with hb1 | hb1 <;>
    rw [hb1] <;> split <;> rw [hstep2, hstep3] <;>
    rcases mkTapbranch_cases h leafB leafA with hb3 | hb3 <;>
    rw [hb3] <;> refine ⟨_, rfl, ?_⟩ <;> simp only [mkTapbranch] <;>
    split <;> split <;> decide

theorem ekeyLe_total (h : Bytes → Bytes → Bytes) (a b : Elem) :
    ekeyLe h a b = true ∨ ekeyLe h b a = true :=
  keyLe_total h (eproj a) (eproj b)

theorem ekeyLe_trans (h : Bytes → Bytes → Bytes) (a b c : Elem)
    (h1 : ekeyLe h a b = true) (h2 : ekeyLe h b c = true) :
    ekeyLe h a c = true :=
  keyLe_trans h (eproj a) (eproj b) (eproj c) h1 h2

theorem keyLe_weight (h : Bytes → Bytes → Bytes) (a b : ℕ × TapNode)
    (hk : keyLe h a b = true) : a.1 ≤ b.1 := by
  rw [keyLe] at hk
  split at hk
  · omega
  · split at hk
    · simp at hk
    · omega

theorem ekeyLe_weight (h : Bytes → Bytes → Bytes) (a b : Elem)
    (hk : ekeyLe h a b = true) : a.1 ≤ b.1 :=
  keyLe_weight h (eproj a) (eproj b) hk

theorem eInsert_perm (h : Bytes → Bytes → Bytes) (e : Elem) :
    ∀ l : List Elem, (eInsert h e l).Perm (e :: l) := by
  intro l
  induction l with
  | nil => rfl
  | cons x xs ih =>
    rw [eInsert]
    by_cases hc : ekeyLe h e x = true
    · rw [if_pos hc]
    · rw [if_neg hc]
      exact (ih.cons x).trans (List.Perm.swap e x xs)

theorem eInsert_mem (h : Bytes → Bytes → Bytes) (e y : Elem) (l : List Elem)
    (hy : y ∈ l) : y ∈ eInsert h e l :=
  (eInsert_perm h e l).symm.subset (List.mem_cons_of_mem e hy)

theorem eInsert_self_mem (h : Bytes → Bytes → Bytes) (e : Elem) (l : List Elem) :
    e ∈ eInsert h e l :=
  (eInsert_perm h e l).symm.subset (by simp)

theorem eInsert_mem_inv (h : Bytes → Bytes → Bytes) (e y : Elem) (l : List Elem)
    (hy : y ∈ eInsert h e l) : y = e ∨ y ∈ l := by
  have := (eInsert_perm h e l).mem_iff.mp hy
  simpa using this

theorem eInsert_pairwise (h : Bytes → Bytes → Bytes) (e : Elem) :
    ∀ l : List Elem, l.Pairwise (fun a b => ekeyLe h a b = true) →
      (eInsert h e l).Pairwise (fun a b => ekeyLe h a b = true) := by
  intro l
  induction l with
  | nil => intro _; simp [eInsert]
  | cons x xs ih =>
    intro hp
    rw [List.pairwise_cons] at hp
    rw [eInsert]
    by_cases hc : ekeyLe h e x = true
    · rw [if_pos hc]
      refine List.Pairwise.cons ?_ (List.Pairwise.cons hp.1 hp.2)
      intro y hy
      rcases List.mem_cons.mp hy with rfl | hy2
      · exact hc
      · exact ekeyLe_trans h e x y hc (hp.1 y hy2)
    · rw [if_neg hc]
      refine List.Pairwise.cons ?_ (ih hp.2)
      intro y hy
      rcases eInsert_mem_inv h e y xs hy with hye | hy2
      · rw [hye]
        rcases ekeyLe_total h e x with he | he
        · exact absurd he hc
        · exact he
      · exact hp.1 y hy2

theorem eInsert_front2 (h : Bytes → Bytes → Bytes) (p r0 : Elem) (rr : List Elem) :
    (ekeyLe h p r0 = true ∧ eInsert h p (r0 :: rr) = p :: r0 :: rr) ∨
    (eInsert h p (r0 :: rr) = r0 :: p :: rr) ∨
    (∃ r1 tt, rr = r1 :: tt ∧
      eInsert h p (r0 :: rr) = r0 :: r1 :: eInsert h p tt) := by
  rw [eInsert]
  by_cases hc : ekeyLe h p r0 = true
  · exact Or.inl ⟨hc, by rw [if_pos hc]⟩
  · rw [if_neg hc]
    cases rr with
    | nil => exact Or.inr (Or.inl (by rw [eInsert]))
    | cons r1 tt =>
      rw [eInsert]
      by_cases hc2 : ekeyLe h p r1 = true
      · rw [if_pos hc2]
        exact Or.inr (Or.inl rfl)
      · rw [if_neg hc2]
        exact Or.inr (Or.inr ⟨r1, tt, rfl, rfl⟩)

theorem bump_fst (m : Mem) : (bump m).map Prod.fst = m.map Prod.fst := by
  induction m with
  | nil => rfl
  | cons x xs _ => simp [bump]

theorem scriptsOf_cons (e : Elem) (l : List Elem) :
    scriptsOf (e :: l) = e.2.2.map Prod.fst ++ scriptsOf l := by
  simp [scriptsOf]

theorem scriptsOf_emerge (h : Bytes → Bytes → Bytes) (a b : Elem) (l : List Elem) :
    scriptsOf (emerge h a b :: l) = scriptsOf (a :: b :: l) := by
  simp [scriptsOf, emerge, bump_fst]

theorem scriptsOf_eInsert (h : Bytes → Bytes → Bytes) (e : Elem) (l : List Elem) :
    (scriptsOf (eInsert h e l)).Perm (scriptsOf (e :: l)) := by
  rw [scriptsOf, scriptsOf]
  exact (eInsert_perm h e l).flatMap_right (fun x => x.2.2.map Prod.fst)

theorem mem_map_fst_eq (s : Bytes) (a b : ℕ) :
    ∀ L : Mem, (L.map Prod.fst).Nodup → (s, a) ∈ L → (s, b) ∈ L → a = b := by
  intro L
  induction L with
  | nil =>
    intro _ ha
    cases ha
  | cons x xs ih =>
    intro hnd ha hb
    rw [List.map_cons, List.nodup_cons] at hnd
    rcases List.mem_cons.mp ha with hxa | ha2
    · rcases List.mem_cons.mp hb with hxb | hb2
      · rw [← hxa] at hxb
        exact ((Prod.mk.injEq s b s a).mp hxb).2.symm
      · exfalso
        apply hnd.1
        rw [← hxa]
        exact List.mem_map.mpr ⟨(s, b), hb2, rfl⟩
    · rcases List.mem_cons.mp hb with hxb | hb2
      · exfalso
        apply hnd.1
        rw [← hxb]
        exact List.mem_map.mpr ⟨(s, a), ha2, rfl⟩
      · exact ih hnd.2 ha2 hb2

theorem eInsert_proj (h : Bytes → Bytes → Bytes) (e : Elem) :
    ∀ l : List Elem, (eInsert h e l).map eproj = qInsert h (eproj e) (l.map eproj) := by
  intro l
  induction l with
  | nil => rfl
  | cons x xs ih =>
    rw [List.map_cons, eInsert, qInsert]
    by_cases hc : ekeyLe h e x = true
    · rw [if_pos hc, if_pos (show keyLe h (eproj e) (eproj x) = true from hc)]
      rfl
    · rw [if_neg hc,
        if_neg (show ¬keyLe h (eproj e) (eproj x) = true from hc),
        List.map_cons, ih]

theorem eLoop_proj (h : Bytes → Bytes → Bytes) :
    ∀ (fuel : ℕ) (q : List Elem),
      hLoop h fuel (q.map eproj) = (eLoop h fuel q).map (fun e => e.2.1) := by
  intro fuel
  induction fuel with
  | zero =>
    intro q
    cases q with
    | nil => rfl
    | cons a t =>
      cases t with
      | nil => rfl
      | cons b t2 => rfl
  | succ n ih =>
    intro q
    cases q with
    | nil => rfl
    | cons a t =>
      cases t with
      | nil => rfl
      | cons b t2 =>
        calc hLoop h (n + 1) ((a :: b :: t2).map eproj)
            = hLoop h n (qInsert h (eproj (emerge h a b)) (t2.map eproj)) := rfl
          _ = hLoop h n ((eInsert h (emerge h a b) t2).map eproj) := by
              rw [eInsert_proj]
          _ = (eLoop h n (eInsert h (emerge h a b) t2)).map (fun e => e.2.1) := ih _
          _ = (eLoop h (n + 1) (a :: b :: t2)).map (fun e => e.2.1) := rfl

theorem ndMems_ne_nil : ∀ t : TapNode, ndMems t ≠ [] := by
  intro t
  induction t with
  | tleaf v s => simp [ndMems]
  | tbranch l r ihl ihr =>
    rw [ndMems]
    intro hcon
    rcases List.append_eq_nil.mp hcon with ⟨h1, _⟩
    exact ihl (List.map_eq_nil_iff.mp h1)

theorem emerge_ne_nil (h : Bytes → Bytes → Bytes) (a b : Elem)
    (ha : a.2.2 ≠ []) : (emerge h a b).2.2 ≠ [] := by
  intro hcon
  rcases List.append_eq_nil.mp hcon with ⟨h1, _⟩
  exact ha (List.map_eq_nil_iff.mp h1)

theorem ndMems_fst : ∀ t : TapNode, (ndMems t).map Prod.fst = leafScripts t := by
  intro t
  induction t with
  | tleaf v s => rfl
  | tbranch l r ihl ihr =>
    rw [ndMems, leafScripts, List.map_append, bump_fst, bump_fst, ihl, ihr]

theorem leafDepth_mem_ndMems (s : Bytes) :
    ∀ (t : TapNode) (d : ℕ), leafDepth s t = some d → (s, d) ∈ ndMems t := by
  intro t
  induction t with
  | tleaf v s2 =>
    intro d hd
    rw [leafDepth] at hd
    by_cases hs : s2 = s
    · rw [if_pos hs] at hd
      cases hd
      rw [ndMems, hs]
      simp
    · rw [if_neg hs] at hd
      cases hd
  | tbranch l r ihl ihr =>
    intro d hd
    rw [leafDepth] at hd
    rw [ndMems]
    cases hl : leafDepth s l with
    | some dl =>
      rw [hl] at hd
      cases hd
      exact List.mem_append_left _ (List.mem_map.mpr ⟨(s, dl), ihl dl hl, rfl⟩)
    | none =>
      rw [hl] at hd
      cases hr : leafDepth s r with
      | some dr =>
        rw [hr] at hd
        cases hd
        exact List.mem_append_right _ (List.mem_map.mpr ⟨(s, dr), ihr dr hr, rfl⟩)
      | none =>
        rw [hr] at hd
        cases hd

theorem ndMems_mem_leafDepth (s : Bytes) :
    ∀ (t : TapNode) (d : ℕ), (leafScripts t).Nodup → (s, d) ∈ ndMems t →
      leafDepth s t = some d := by
  intro t
  induction t with
  | tleaf v s2 =>
    intro d _ hm
    rw [ndMems] at hm
    rcases List.mem_singleton.mp hm with hm2
    rw [leafDepth, if_pos ((Prod.mk.injEq s d s2 0).mp hm2).1.symm]
    rw [((Prod.mk.injEq s d s2 0).mp hm2).2]
  | tbranch l r ihl ihr =>
    intro d hnd hm
    rw [leafScripts] at hnd
    rw [List.nodup_append] at hnd
    rw [ndMems] at hm
    rw [leafDepth]
    rcases List.mem_append.mp hm with hml | hmr
    · rcases List.mem_map.mp hml with ⟨sk, hsk, hsk2⟩
      have hs : sk.1 = s := ((Prod.mk.injEq sk.1 (sk.2 + 1) s d).mp hsk2).1
      have hd : sk.2 + 1 = d := ((Prod.mk.injEq sk.1 (sk.2 + 1) s d).mp hsk2).2
      have hdl : leafDepth s l = some sk.2 := by
        refine ihl sk.2 hnd.1 ?_
        rw [← hs]
        exact hsk
      rw [hdl]
      show some (sk.2 + 1) = some d
      rw [hd]
    · rcases List.mem_map.mp hmr with ⟨sk, hsk, hsk2⟩
      have hs : sk.1 = s := ((Prod.mk.injEq sk.1 (sk.2 + 1) s d).mp hsk2).1
      have hd : sk.2 + 1 = d := ((Prod.mk.injEq sk.1 (sk.2 + 1) s d).mp hsk2).2
      have hrr : leafDepth s r = some sk.2 := by
        refine ihr sk.2 hnd.2.1 ?_
        rw [← hs]
        exact hsk
      have hsl : s ∉ leafScripts l := by
        intro hcon
        refine hnd.2.2 hcon ?_
        rw [← ndMems_fst, ← hs]
        exact List.mem_map.mpr ⟨sk, hsk, rfl⟩
      rw [leafDepth_eq_none_of_not_mem s l hsl, hrr]
      show some (sk.2 + 1) = some d
      rw [hd]

theorem eLoop_nil (h : Bytes → Bytes → Bytes) (fuel : ℕ) :
    eLoop h fuel ([] : List Elem) = none := by
  cases fuel <;> rfl

theorem eLoop_single (h : Bytes → Bytes → Bytes) (fuel : ℕ) (e : Elem) :
    eLoop h fuel [e] = some e := by
  cases fuel <;> rfl

theorem root_self (fin : Elem) (hne : fin.2.2 ≠ []) : Root fin fin 0 :=
  ⟨hne, fun sk hsk => by simpa using hsk⟩

theorem root_child_left (h : Bytes → Bytes → Bytes) (fin a b : Elem) (dp : ℕ)
    (hp : Root fin (emerge h a b) dp) (hne : a.2.2 ≠ []) :
    Root fin a (dp + 1) := by
  refine ⟨hne, ?_⟩
  intro sk hsk
  have hmem : (sk.1, sk.2 + 1) ∈ (emerge h a b).2.2 :=
    List.mem_append_left _ (List.mem_map.mpr ⟨sk, hsk, rfl⟩)
  have hfin := hp.2 _ hmem
  have harith : sk.2 + (dp + 1) = sk.2 + 1 + dp := by omega
  rw [harith]
  exact hfin

theorem root_child_right (h : Bytes → Bytes → Bytes) (fin a b : Elem) (dp : ℕ)
    (hp : Root fin (emerge h a b) dp) (hne : b.2.2 ≠ []) :
    Root fin b (dp + 1) := by
  refine ⟨hne, ?_⟩
  intro sk hsk
  have hmem : (sk.1, sk.2 + 1) ∈ (emerge h a b).2.2 :=
    List.mem_append_right _ (List.mem_map.mpr ⟨sk, hsk, rfl⟩)
  have hfin := hp.2 _ hmem
  have harith : sk.2 + (dp + 1) = sk.2 + 1 + dp := by omega
  rw [harith]
  exact hfin

theorem step_ne_nil (h : Bytes → Bytes → Bytes) (x0 x1 : Elem) (xs : List Elem)
    (hne : ∀ e ∈ x0 :: x1 :: xs, e.2.2 ≠ []) :
    ∀ e ∈ eInsert h (emerge h x0 x1) xs, e.2.2 ≠ [] := by
  intro e he
  rcases eInsert_mem_inv h _ e xs he with heq | hm
  · rw [heq]
    exact emerge_ne_nil h x0 x1 (hne x0 (by simp))
  · exact hne e (by simp [hm])

theorem root_exists (h : Bytes → Bytes → Bytes) :
    ∀ (fuel : ℕ) (q : List Elem) (fin : Elem), eLoop h fuel q = some fin →
      (∀ e ∈ q, e.2.2 ≠ []) → ∀ a ∈ q, ∃ d, Root fin a d := by
  intro fuel
  induction fuel with
  | zero =>
    intro q fin hrun hne a ha
    cases q with
    | nil => exact Option.noConfusion hrun
    | cons e t =>
      cases t with
      | nil =>
        have hfe : fin = e := (Option.some.inj hrun).symm
        have hae : a = e := by simpa using ha
        subst hfe
        subst hae
        exact ⟨0, root_self a (hne a (by simp))⟩
      | cons b t2 => exact Option.noConfusion hrun
  | succ n ih =>
    intro q fin hrun hne a ha
    cases q with
    | nil => exact Option.noConfusion hrun
    | cons e0 t =>
      cases t with
      | nil =>
        have hfe : fin = e0 := (Option.some.inj hrun).symm
        have hae : a = e0 := by simpa using ha
        subst hfe
        subst hae
        exact ⟨0, root_self a (hne a (by simp))⟩
      | cons e1 rest =>
        have hrun2 : eLoop h n (eInsert h (emerge h e0 e1) rest) = some fin := hrun
        have hne2 := step_ne_nil h e0 e1 rest hne
        rcases List.mem_cons.mp ha with ha0 | ha1
        · obtain ⟨dp, hdp⟩ := ih _ fin hrun2 hne2 (emerge h e0 e1)
            (eInsert_self_mem h _ rest)
          subst ha0
          exact ⟨dp + 1, root_child_left h fin a e1 dp hdp (hne a (by simp))⟩
        · rcases List.mem_cons.mp ha1 with ha0 | ha2
          · obtain ⟨dp, hdp⟩ := ih _ fin hrun2 hne2 (emerge h e0 e1)
              (eInsert_self_mem h _ rest)
            subst ha0
            exact ⟨dp + 1, root_child_right h fin e0 a dp hdp (hne a (by simp))⟩
          · exact ih _ fin hrun2 hne2 a (eInsert_mem h _ a rest ha2)

theorem root_uniq (fin a : Elem) (hfnd : (fin.2.2.map Prod.fst).Nodup)
    (d1 d2 : ℕ) (h1 : Root fin a d1) (h2 : Root fin a d2) : d1 = d2 := by
  obtain ⟨sk, hsk⟩ := List.exists_mem_of_ne_nil _ h1.1
  have m1 := h1.2 sk hsk
  have m2 := h2.2 sk hsk
  have := mem_map_fst_eq sk.1 (sk.2 + d1) (sk.2 + d2) fin.2.2 hfnd m1 m2
  omega

theorem root_succ (h : Bytes → Bytes → Bytes) (fuel : ℕ) (x0 x1 : Elem)
    (xs : List Elem) (fin : Elem)
    (hrun : eLoop h (fuel + 1) (x0 :: x1 :: xs) = some fin)
    (hne : ∀ e ∈ x0 :: x1 :: xs, e.2.2 ≠ [])
    (hfnd : (fin.2.2.map Prod.fst).Nodup)
    (da : ℕ) (hda : Root fin x0 da) :
    ∃ dp, Root fin (emerge h x0 x1) dp ∧ da = dp + 1 := by
  have hrun2 : eLoop h fuel (eInsert h (emerge h x0 x1) xs) = some fin := hrun
  obtain ⟨dp, hdp⟩ := root_exists h fuel _ fin hrun2 (step_ne_nil h x0 x1 xs hne)
    (emerge h x0 x1) (eInsert_self_mem h _ xs)
  have hda2 : Root fin x0 (dp + 1) :=
    root_child_left h fin x0 x1 dp hdp (hne x0 (by simp))
  exact ⟨dp, hdp, root_uniq fin x0 hfnd da (dp + 1) hda hda2⟩

theorem root_succ2 (h : Bytes → Bytes → Bytes) (fuel : ℕ) (x0 x1 : Elem)
    (xs : List Elem) (fin : Elem)
    (hrun : eLoop h (fuel + 1) (x0 :: x1 :: xs) = some fin)
    (hne : ∀ e ∈ x0 :: x1 :: xs, e.2.2 ≠ [])
    (hfnd : (fin.2.2.map Prod.fst).Nodup)
    (db : ℕ) (hdb : Root fin x1 db) :
    ∃ dp, Root fin (emerge h x0 x1) dp ∧ db = dp + 1 := by
  have hrun2 : eLoop h fuel (eInsert h (emerge h x0 x1) xs) = some fin := hrun
  obtain ⟨dp, hdp⟩ := root_exists h fuel _ fin hrun2 (step_ne_nil h x0 x1 xs hne)
    (emerge h x0 x1) (eInsert_self_mem h _ xs)
  have hdb2 : Root fin x1 (dp + 1) :=
    root_child_right h fin x0 x1 dp hdp (hne x1 (by simp))
  exact ⟨dp, hdp, root_uniq fin x1 hfnd db (dp + 1) hdb hdb2⟩

theorem eLoop_scripts (h : Bytes → Bytes → Bytes) :
    ∀ (fuel : ℕ) (q : List Elem) (fin : Elem), eLoop h fuel q = some fin →
      (fin.2.2.map Prod.fst).Perm (scriptsOf q) := by
  intro fuel
  induction fuel with
  | zero =>
    intro q fin hrun
    cases q with
    | nil => exact Option.noConfusion hrun
    | cons a t =>
      cases t with
      | nil =>
        have hfe : fin = a := (Option.some.inj hrun).symm
        subst hfe
        simp [scriptsOf]
      | cons b t2 => exact Option.noConfusion hrun
  | succ n ih =>
    intro q fin hrun
    cases q with
    | nil => exact Option.noConfusion hrun
    | cons a t =>
      cases t with
      | nil =>
        have hfe : fin = a := (Option.some.inj hrun).symm
        subst hfe
        simp [scriptsOf]
      | cons b t2 =>
        have hrun2 : eLoop h n (eInsert h (emerge h a b) t2) = some fin := hrun
        have hp := ih _ _ hrun2
        refine hp.trans ?_
        refine (scriptsOf_eInsert h _ t2).trans ?_
        rw [scriptsOf_emerge]

theorem eLoop_mems (h : Bytes → Bytes → Bytes) :
    ∀ (fuel : ℕ) (q : List Elem) (fin : Elem),
      (∀ e ∈ q, e.2.2.Perm (ndMems e.2.1)) →
      eLoop h fuel q = some fin → fin.2.2.Perm (ndMems fin.2.1) := by
  intro fuel
  induction fuel with
  | zero =>
    intro q fin hq hrun
    cases q with
    | nil => exact Option.noConfusion hrun
    | cons a t =>
      cases t with
      | nil =>
        have hfe : fin = a := (Option.some.inj hrun).symm
        subst hfe
        exact hq fin (by simp)
      | cons b t2 => exact Option.noConfusion hrun
  | succ n ih =>
    intro q fin hq hrun
    cases q with
    | nil => exact Option.noConfusion hrun
    | cons a t =>
      cases t with
      | nil =>
        have hfe : fin = a := (Option.some.inj hrun).symm
        subst hfe
        exact hq fin (by simp)
      | cons b t2 =>
        have hrun2 : eLoop h n (eInsert h (emerge h a b) t2) = some fin := hrun
        refine ih _ fin ?_ hrun2
        intro e he
        rcases eInsert_mem_inv h _ e t2 he with heq | hm
        · subst heq
          show (bump a.2.2 ++ bump b.2.2).Perm (ndMems (mkTapbranch h a.2.1 b.2.1))
          have hba : (bump a.2.2).Perm (bump (ndMems a.2.1)) :=
            (hq a (by simp)).map _
          have hbb : (bump b.2.2).Perm (bump (ndMems b.2.1)) :=
            (hq b (by simp)).map _
          rcases mkTapbranch_cases h a.2.1 b.2.1 with hmk | hmk
          · rw [hmk, ndMems]
            exact hba.append hbb
          · rw [hmk, ndMems]
            exact (hba.append hbb).trans List.perm_append_comm
        · exact hq e (by simp [hm])

theorem front_bound (h : Bytes → Bytes → Bytes) (e0 e1 r0 : Elem) (rr : List Elem)
    (hpos : ∀ e ∈ e0 :: e1 :: r0 :: rr, 1 ≤ e.1)
    (hW01 : e0.1 ≤ e1.1)
    (hW1r : ∀ x ∈ r0 :: rr, e1.1 ≤ x.1) :
    ∃ f0 f1 t2, eInsert h (emerge h e0 e1) (r0 :: rr) = f0 :: f1 :: t2 ∧
      e0.1 + e1.1 ≤ f0.1 + f1.1 ∧
      (f0.1 + f1.1 = e0.1 + e1.1 → f0.1 = e1.1 ∧ f1.1 = e1.1 ∧ e0.1 = e1.1) := by
  have hp1 : (emerge h e0 e1).1 = e0.1 + e1.1 := rfl
  have hr0p : 1 ≤ r0.1 := hpos r0 (by simp)
  have he0p : 1 ≤ e0.1 := hpos e0 (by simp)
  rcases eInsert_front2 h (emerge h e0 e1) r0 rr with ⟨_, heq⟩ | heq | ⟨r1, tt, hrr, heq⟩
  · refine ⟨emerge h e0 e1, r0, rr, heq, by omega, ?_⟩
    intro hceq
    exfalso
    omega
  · refine ⟨r0, emerge h e0 e1, rr, heq, by omega, ?_⟩
    intro hceq
    exfalso
    omega
  · have h0 : e1.1 ≤ r0.1 := hW1r r0 (by simp)
    have h1 : e1.1 ≤ r1.1 := hW1r r1 (by simp [hrr])
    exact ⟨r0, r1, _, heq, by omega, fun hceq => ⟨by omega, by omega, by omega⟩⟩

theorem bound_one (h : Bytes → Bytes → Bytes) (fin e0 e1 r0 : Elem)
    (rr : List Elem)
    (hpos : ∀ e ∈ e0 :: e1 :: r0 :: rr, 1 ≤ e.1)
    (hW01 : e0.1 ≤ e1.1)
    (hW1r : ∀ x ∈ r0 :: rr, e1.1 ≤ x.1)
    (hX : InvX fin (eInsert h (emerge h e0 e1) (r0 :: rr)))
    (hP2 : InvP2 fin (eInsert h (emerge h e0 e1) (r0 :: rr)))
    (b : Elem) (hb : b ∈ r0 :: rr)
    (hblt : b.1 < e0.1 + e1.1)
    (hbgt : e1.1 < b.1 ∨ e0.1 < e1.1)
    (db dp : ℕ) (hdb : Root fin b db) (hdp : Root fin (emerge h e0 e1) dp) :
    db ≤ dp + 1 := by
  obtain ⟨f0, f1, t2, heq, hle, himp⟩ := front_bound h e0 e1 r0 rr hpos hW01 hW1r
  rw [heq] at hX hP2
  have hbmem : b ∈ f0 :: f1 :: t2 := by
    rw [← heq]
    exact eInsert_mem h _ b _ hb
  have hpmem : emerge h e0 e1 ∈ f0 :: f1 :: t2 := by
    rw [← heq]
    exact eInsert_self_mem h _ _
  have hp1 : (emerge h e0 e1).1 = e0.1 + e1.1 := rfl
  by_cases hsum : e0.1 + e1.1 < f0.1 + f1.1
  · exact hX b hbmem (emerge h e0 e1) hpmem (by omega) (by omega) db dp hdb hdp
  · have hceq : f0.1 + f1.1 = e0.1 + e1.1 := by omega
    obtain ⟨hf0, hf1, h01⟩ := himp hceq
    rcases hbgt with hgt | hlt01
    · exact hP2 (by omega) b hbmem (emerge h e0 e1) hpmem (by omega) (by omega)
        (by omega) db dp hdb hdp
    · omega

theorem bound_two (h : Bytes → Bytes → Bytes) (fin e0 e1 r0 : Elem)
    (rr : List Elem)
    (hpos : ∀ e ∈ e0 :: e1 :: r0 :: rr, 1 ≤ e.1)
    (hW01 : e0.1 ≤ e1.1)
    (hW1r : ∀ x ∈ r0 :: rr, e1.1 ≤ x.1)
    (hX : InvX fin (eInsert h (emerge h e0 e1) (r0 :: rr)))
    (hP3 : InvP3 fin (eInsert h (emerge h e0 e1) (r0 :: rr)))
    (b : Elem) (hb : b ∈ r0 :: rr)
    (hbw : b.1 ≤ e1.1)
    (db dp : ℕ) (hdb : Root fin b db) (hdp : Root fin (emerge h e0 e1) dp) :
    db ≤ dp + 2 := by
  obtain ⟨f0, f1, t2, heq, hle, himp⟩ := front_bound h e0 e1 r0 rr hpos hW01 hW1r
  rw [heq] at hX hP3
  have hbmem : b ∈ f0 :: f1 :: t2 := by
    rw [← heq]
    exact eInsert_mem h _ b _ hb
  have hpmem : emerge h e0 e1 ∈ f0 :: f1 :: t2 := by
    rw [← heq]
    exact eInsert_self_mem h _ _
  have hp1 : (emerge h e0 e1).1 = e0.1 + e1.1 := rfl
  have hbe : e1.1 ≤ b.1 := hW1r b hb
  have he0p : 1 ≤ e0.1 := hpos e0 (by simp)
  by_cases hsum : e0.1 + e1.1 < f0.1 + f1.1
  · have := hX b hbmem (emerge h e0 e1) hpmem (by omega) (by omega) db dp hdb hdp
    omega
  · have hceq : f0.1 + f1.1 = e0.1 + e1.1 := by omega
    obtain ⟨hf0, hf1, h01⟩ := himp hceq
    exact hP3 (by omega) b hbmem (emerge h e0 e1) hpmem (by omega) (by omega)
      db dp hdb hdp

theorem eLoop_main (h : Bytes → Bytes → Bytes) :
    ∀ (fuel : ℕ) (q : List Elem) (fin : Elem),
      q.Pairwise (fun a b => ekeyLe h a b = true) →
      (∀ e ∈ q, 1 ≤ e.1) →
      (∀ e ∈ q, e.2.2 ≠ []) →
      (scriptsOf q).Nodup →
      eLoop h fuel q = some fin →
      InvS fin q ∧ InvE fin q ∧ InvX fin q ∧ InvP2 fin q ∧ InvP3 fin q := by
  intro fuel
  induction fuel using Nat.strong_induction_on with
  | _ fuel IH =>
  intro q fin hsort hpos hne hnd hrun
  cases q with
  | nil =>
    rw [eLoop_nil] at hrun
    exact Option.noConfusion hrun
  | cons e0 q2 =>
    cases q2 with
    | nil =>
      rw [eLoop_single] at hrun
      have hfe : fin = e0 := (Option.some.inj hrun).symm
      have hfnd : (e0.2.2.map Prod.fst).Nodup := by
        simpa [scriptsOf] using hnd
      refine ⟨?_, ?_, trivial, trivial, trivial⟩
      · intro a ha b hb hab da db hra hrb
        have ha2 : a = e0 := by simpa using ha
        have hb2 : b = e0 := by simpa using hb
        rw [ha2, hb2] at hab
        omega
      · intro a ha b hb hab da db hra hrb
        have ha2 : a = e0 := by simpa using ha
        have hb2 : b = e0 := by simpa using hb
        rw [ha2] at hra
        rw [hb2] at hrb
        have := root_uniq fin e0 (by rw [hfe]; exact hfnd) da db hra hrb
        omega
    | cons e1 rest =>
      cases fuel with
      | zero => exact Option.noConfusion hrun
      | succ fl =>
        rw [List.pairwise_cons] at hsort
        obtain ⟨hs0, hsort1⟩ := hsort
        rw [List.pairwise_cons] at hsort1
        obtain ⟨hs1, hsrest⟩ := hsort1
        have hW01 : e0.1 ≤ e1.1 := ekeyLe_weight h e0 e1 (hs0 e1 (by simp))
        have hW1r : ∀ x ∈ rest, e1.1 ≤ x.1 :=
          fun x hx => ekeyLe_weight h e1 x (hs1 x hx)
        have hp1 : (emerge h e0 e1).1 = e0.1 + e1.1 := rfl
        have he0p : 1 ≤ e0.1 := hpos e0 (by simp)
        have he1p : 1 ≤ e1.1 := hpos e1 (by simp)
        have hrun2 : eLoop h fl (eInsert h (emerge h e0 e1) rest) = some fin := hrun
        have hsort' : (eInsert h (emerge h e0 e1) rest).Pairwise
            (fun a b => ekeyLe h a b = true) :=
          eInsert_pairwise h _ rest hsrest
        have hpos' : ∀ e ∈ eInsert h (emerge h e0 e1) rest, 1 ≤ e.1 := by
          intro e he
          rcases eInsert_mem_inv h _ e rest he with heq2 | hm
          · rw [heq2]
            show 1 ≤ e0.1 + e1.1
            omega
          · exact hpos e (by simp [hm])
        have hne' := step_ne_nil h e0 e1 rest hne
        have hnd' : (scriptsOf (eInsert h (emerge h e0 e1) rest)).Nodup := by
          have hq1 := scriptsOf_eInsert h (emerge h e0 e1) rest
          rw [scriptsOf_emerge] at hq1
          exact hq1.symm.nodup hnd
        obtain ⟨hS, hE, hX, hP2, hP3⟩ :=
          IH fl (by omega) (eInsert h (emerge h e0 e1) rest) fin
            hsort' hpos' hne' hnd' hrun2
        have hfnd : (fin.2.2.map Prod.fst).Nodup :=
          (eLoop_scripts h (fl + 1) (e0 :: e1 :: rest) fin hrun).symm.nodup hnd
        have hsucc0 : ∀ da, Root fin e0 da →
            ∃ dp, Root fin (emerge h e0 e1) dp ∧ da = dp + 1 :=
          fun da hda => root_succ h fl e0 e1 rest fin hrun hne hfnd da hda
        have hsucc1 : ∀ db, Root fin e1 db →
            ∃ dp, Root fin (emerge h e0 e1) dp ∧ db = dp + 1 :=
          fun db hdb => root_succ2 h fl e0 e1 rest fin hrun hne hfnd db hdb
        have hpm : emerge h e0 e1 ∈ eInsert h (emerge h e0 e1) rest :=
          eInsert_self_mem h _ rest
        have hrm : ∀ x ∈ rest, x ∈ eInsert h (emerge h e0 e1) rest :=
          fun x hx => eInsert_mem h _ x rest hx
        have hmin : ∀ x ∈ e0 :: e1 :: rest, e0.1 ≤ x.1 := by
          intro x hx
          rcases List.mem_cons.mp hx with h1 | hx2
          · rw [h1]
          · rcases List.mem_cons.mp hx2 with h2 | hx3
            · rw [h2]
              exact hW01
            · exact le_trans hW01 (hW1r x hx3)
        refine ⟨?_, ?_, ?_, ?_, ?_⟩
        · -- invariant S
          intro a ha b hb hab da db hra hrb
          rcases List.mem_cons.mp hb with hb0 | hb1
          · exfalso
            have := hmin a ha
            rw [hb0] at hab
            omega
          rcases List.mem_cons.mp hb1 with hb0 | hbrest
          · rw [hb0] at hab hrb
            have ha0 : a = e0 := by
              rcases List.mem_cons.mp ha with h1 | ha1
              · exact h1
              · exfalso
                rcases List.mem_cons.mp ha1 with h2 | ha2
                · rw [h2] at hab
                  omega
                · have := hW1r a ha2
                  omega
            rw [ha0] at hra
            obtain ⟨dpa, hdpa, hda⟩ := hsucc0 da hra
            obtain ⟨dpb, hdpb, hdb2⟩ := hsucc1 db hrb
            have := root_uniq fin (emerge h e0 e1) hfnd dpa dpb hdpa hdpb
            omega
          · have hb_w : e1.1 ≤ b.1 := hW1r b hbrest
            rcases List.mem_cons.mp ha with ha0 | ha1
            · rw [ha0] at hab hra
              obtain ⟨dp, hdp, hda⟩ := hsucc0 da hra
              by_cases hblt : b.1 < e0.1 + e1.1
              · cases rest with
                | nil => cases hbrest
                | cons r0 rr =>
                  have hbgt : e1.1 < b.1 ∨ e0.1 < e1.1 := by omega
                  have := bound_one h fin e0 e1 r0 rr hpos hW01 hW1r hX hP2
                    b hbrest hblt hbgt db dp hrb hdp
                  omega
              · rcases Nat.lt_or_ge (e0.1 + e1.1) b.1 with hlt | hge
                · have := hS (emerge h e0 e1) hpm b (hrm b hbrest)
                    (by omega) dp db hdp hrb
                  omega
                · have := hE (emerge h e0 e1) hpm b (hrm b hbrest)
                    (by omega) dp db hdp hrb
                  omega
            · rcases List.mem_cons.mp ha1 with ha0 | harest
              · rw [ha0] at hab hra
                obtain ⟨dp, hdp, hda⟩ := hsucc1 da hra
                by_cases hblt : b.1 < e0.1 + e1.1
                · cases rest with
                  | nil => cases hbrest
                  | cons r0 rr =>
                    have hbgt : e1.1 < b.1 ∨ e0.1 < e1.1 := Or.inl (by omega)
                    have := bound_one h fin e0 e1 r0 rr hpos hW01 hW1r hX hP2
                      b hbrest hblt hbgt db dp hrb hdp
                    omega
                · rcases Nat.lt_or_ge (e0.1 + e1.1) b.1 with hlt | hge
                  · have := hS (emerge h e0 e1) hpm b (hrm b hbrest)
                      (by omega) dp db hdp hrb
                    omega
                  · have := hE (emerge h e0 e1) hpm b (hrm b hbrest)
                      (by omega) dp db hdp hrb
                    omega
              · exact hS a (hrm a harest) b (hrm b hbrest) hab da db hra hrb
        · -- invariant E
          intro a ha b hb hab da db hra hrb
          rcases List.mem_cons.mp ha with ha0 | ha1
          · rw [ha0] at hab hra
            rcases List.mem_cons.mp hb with hb0 | hb1
            · rw [hb0] at hrb
              have := root_uniq fin e0 hfnd da db hra hrb
              omega
            rcases List.mem_cons.mp hb1 with hb0 | hbrest
            · rw [hb0] at hrb
              obtain ⟨dpa, hdpa, hda⟩ := hsucc0 da hra
              obtain ⟨dpb, hdpb, hdb2⟩ := hsucc1 db hrb
              have := root_uniq fin (emerge h e0 e1) hfnd dpa dpb hdpa hdpb
              omega
            · have hbw2 : e1.1 ≤ b.1 := hW1r b hbrest
              obtain ⟨dp, hdp, hda⟩ := hsucc0 da hra
              cases rest with
              | nil => cases hbrest
              | cons r0 rr =>
                have := bound_two h fin e0 e1 r0 rr hpos hW01 hW1r hX hP3
                  b hbrest (by omega) db dp hrb hdp
                omega
          · rcases List.mem_cons.mp ha1 with ha0 | harest
            · rw [ha0] at hab hra
              rcases List.mem_cons.mp hb with hb0 | hb1
              · rw [hb0] at hrb
                obtain ⟨dpa, hdpa, hda⟩ := hsucc1 da hra
                obtain ⟨dpb, hdpb, hdb2⟩ := hsucc0 db hrb
                have := root_uniq fin (emerge h e0 e1) hfnd dpa dpb hdpa hdpb
                omega
              rcases List.mem_cons.mp hb1 with hb0 | hbrest
              · rw [hb0] at hrb
                have := root_uniq fin e1 hfnd da db hra hrb
                omega
              · obtain ⟨dp, hdp, hda⟩ := hsucc1 da hra
                cases rest with
                | nil => cases hbrest
                | cons r0 rr =>
                  have := bound_two h fin e0 e1 r0 rr hpos hW01 hW1r hX hP3
                    b hbrest (by omega) db dp hrb hdp
                  omega
            · rcases List.mem_cons.mp hb with hb0 | hb1
              · rw [hb0] at hab hrb
                obtain ⟨dp, hdp, hdb2⟩ := hsucc0 db hrb
                have haw : e1.1 ≤ a.1 := hW1r a harest
                have := hS a (hrm a harest) (emerge h e0 e1) hpm
                  (by omega) da dp hra hdp
                omega
              rcases List.mem_cons.mp hb1 with hb0 | hbrest
              · rw [hb0] at hab hrb
                obtain ⟨dp, hdp, hdb2⟩ := hsucc1 db hrb
                have haw : e1.1 ≤ a.1 := hW1r a harest
                have := hS a (hrm a harest) (emerge h e0 e1) hpm
                  (by omega) da dp hra hdp
                omega
              · exact hE a (hrm a harest) b (hrm b hbrest) hab da db hra hrb
        · -- invariant X
          intro a ha b hb hab hbsum da db hra hrb
          rcases List.mem_cons.mp hb with hb0 | hb1
          · exfalso
            have := hmin a ha
            rw [hb0] at hab
            omega
          rcases List.mem_cons.mp hb1 with hb0 | hbrest
          · rw [hb0] at hab hrb
            have ha0 : a = e0 := by
              rcases List.mem_cons.mp ha with h1 | ha1
              · exact h1
              · exfalso
                rcases List.mem_cons.mp ha1 with h2 | ha2
                · rw [h2] at hab
                  omega
                · have := hW1r a ha2
                  omega
            rw [ha0] at hra
            obtain ⟨dpa, hdpa, hda⟩ := hsucc0 da hra
            obtain ⟨dpb, hdpb, hdb2⟩ := hsucc1 db hrb
            have := root_uniq fin (emerge h e0 e1) hfnd dpa dpb hdpa hdpb
            omega
          · rcases List.mem_cons.mp ha with ha0 | ha1
            · rw [ha0] at hra
              obtain ⟨dp, hdp, hda⟩ := hsucc0 da hra
              have := hS b (hrm b hbrest) (emerge h e0 e1) hpm
                (by omega) db dp hrb hdp
              omega
            · rcases List.mem_cons.mp ha1 with ha0 | harest
              · rw [ha0] at hra
                obtain ⟨dp, hdp, hda⟩ := hsucc1 da hra
                have := hS b (hrm b hbrest) (emerge h e0 e1) hpm
                  (by omega) db dp hrb hdp
                omega
              · cases rest with
                | nil => cases hbrest
                | cons r0 rr =>
                  obtain ⟨f0, f1, t2, heq, hle, himp⟩ :=
                    front_bound h e0 e1 r0 rr hpos hW01 hW1r
                  rw [heq] at hX
                  exact hX a (by rw [← heq]; exact hrm a harest)
                    b (by rw [← heq]; exact hrm b hbrest)
                    hab (by omega) da db hra hrb
        · -- invariant P2
          intro h01 a ha b hb halo hahi hbeq da db hra hrb
          have ha_rest : a ∈ rest := by
            rcases List.mem_cons.mp ha with h1 | ha1
            · exfalso
              rw [h1] at halo
              omega
            · rcases List.mem_cons.mp ha1 with h2 | ha2
              · exfalso
                rw [h2] at halo
                omega
              · exact ha2
          have hb_rest : b ∈ rest := by
            rcases List.mem_cons.mp hb with h1 | hb1
            · exfalso
              rw [h1] at hbeq
              omega
            · rcases List.mem_cons.mp hb1 with h2 | hb2
              · exfalso
                rw [h2] at hbeq
                omega
              · exact hb2
          cases rest with
          | nil => cases ha_rest
          | cons r0 rr =>
            obtain ⟨f0, f1, t2, heq, hle, himp⟩ :=
              front_bound h e0 e1 r0 rr hpos hW01 hW1r
            rw [heq] at hX hP2
            have hamem : a ∈ f0 :: f1 :: t2 := by
              rw [← heq]
              exact hrm a ha_rest
            have hbmem : b ∈ f0 :: f1 :: t2 := by
              rw [← heq]
              exact hrm b hb_rest
            by_cases hsum : e0.1 + e1.1 < f0.1 + f1.1
            · exact hX a hamem b hbmem (by omega) (by omega) da db hra hrb
            · have hceq : f0.1 + f1.1 = e0.1 + e1.1 := by omega
              obtain ⟨hf0, hf1, hf01⟩ := himp hceq
              exact hP2 (by omega) a hamem b hbmem (by omega) (by omega)
                (by omega) da db hra hrb
        · -- invariant P3
          intro h01 a ha b hb haeq hbeq da db hra hrb
          have hb_rest : b ∈ rest := by
            rcases List.mem_cons.mp hb with h1 | hb1
            · exfalso
              rw [h1] at hbeq
              omega
            · rcases List.mem_cons.mp hb1 with h2 | hb2
              · exfalso
                rw [h2] at hbeq
                omega
              · exact hb2
          have hbw3 : e1.1 ≤ b.1 := hW1r b hb_rest
          rcases List.mem_cons.mp ha with ha0 | ha1
          · rw [ha0] at hra
            obtain ⟨dp, hdp, hda⟩ := hsucc0 da hra
            have := hE b (hrm b hb_rest) (emerge h e0 e1) hpm
              (by omega) db dp hrb hdp
            omega
          rcases List.mem_cons.mp ha1 with ha0 | ha_rest
          · rw [ha0] at hra
            obtain ⟨dp, hdp, hda⟩ := hsucc1 da hra
            have := hE b (hrm b hb_rest) (emerge h e0 e1) hpm
              (by omega) db dp hrb hdp
            omega
          · cases rest with
            | nil => cases ha_rest
            | cons r0 rr =>
              have hr0w : e1.1 ≤ r0.1 := hW1r r0 (by simp)
              rw [List.pairwise_cons] at hsrest
              obtain ⟨hsr0, hsrr⟩ := hsrest
              have hr0a : r0.1 ≤ a.1 := by
                rcases List.mem_cons.mp ha_rest with h1 | ha2
                · rw [h1]
                · exact ekeyLe_weight h r0 a (hsr0 a ha2)
              rcases eInsert_front2 h (emerge h e0 e1) r0 rr with
                ⟨hc, heq⟩ | heq | ⟨r1, tt, hrr, heq⟩
              · exfalso
                have := ekeyLe_weight h (emerge h e0 e1) r0 hc
                omega
              · -- the merged pair lands second: two-step descent
                have ha0 : a = r0 := by
                  rcases List.mem_cons.mp ha_rest with h1 | ha2
                  · exact h1
                  · exfalso
                    rw [heq] at hsort'
                    rw [List.pairwise_cons] at hsort'
                    obtain ⟨_, hsort2⟩ := hsort'
                    rw [List.pairwise_cons] at hsort2
                    obtain ⟨hpw, _⟩ := hsort2
                    have := ekeyLe_weight h (emerge h e0 e1) a (hpw a ha2)
                    omega
                subst ha0
                cases fl with
                | zero =>
                  rw [heq] at hrun2
                  exact Option.noConfusion hrun2
                | succ fl2 =>
                  have hrunq : eLoop h (fl2 + 1)
                      (a :: emerge h e0 e1 :: rr) = some fin := by
                    rw [← heq]
                    exact hrun2
                  have hneq : ∀ e ∈ a :: emerge h e0 e1 :: rr, e.2.2 ≠ [] := by
                    rw [← heq]
                    exact hne'
                  obtain ⟨dpa, hdpa, hda⟩ :=
                    root_succ h fl2 a (emerge h e0 e1) rr fin hrunq hneq hfnd da hra
                  have hbrr : b ∈ rr := by
                    rcases List.mem_cons.mp hb_rest with h1 | hb2
                    · exfalso
                      rw [h1] at hbeq
                      omega
                    · exact hb2
                  have hrun3 : eLoop h fl2
                      (eInsert h (emerge h a (emerge h e0 e1)) rr) = some fin := hrunq
                  have hsorted3 : (eInsert h (emerge h a (emerge h e0 e1)) rr).Pairwise
                      (fun x y => ekeyLe h x y = true) :=
                    eInsert_pairwise h _ rr hsrr
                  have hpos3 : ∀ e ∈ eInsert h (emerge h a (emerge h e0 e1)) rr,
                      1 ≤ e.1 := by
                    intro e he
                    rcases eInsert_mem_inv h _ e rr he with heq2 | hm2
                    · rw [heq2]
                      show 1 ≤ a.1 + (e0.1 + e1.1)
                      omega
                    · exact hpos e (by simp [hm2])
                  have hne3 := step_ne_nil h a (emerge h e0 e1) rr hneq
                  have hnd3 : (scriptsOf
                      (eInsert h (emerge h a (emerge h e0 e1)) rr)).Nodup := by
                    have hq1 := scriptsOf_eInsert h (emerge h a (emerge h e0 e1)) rr
                    rw [scriptsOf_emerge] at hq1
                    rw [heq] at hnd'
                    exact hq1.symm.nodup hnd'
                  obtain ⟨hS2, _, _, _, _⟩ :=
                    IH fl2 (by omega) _ fin hsorted3 hpos3 hne3 hnd3 hrun3
                  have hbq : b ∈ eInsert h (emerge h a (emerge h e0 e1)) rr :=
                    eInsert_mem h _ b rr hbrr
                  have hpaq : emerge h a (emerge h e0 e1) ∈
                      eInsert h (emerge h a (emerge h e0 e1)) rr :=
                    eInsert_self_mem h _ rr
                  have hpa1 : (emerge h a (emerge h e0 e1)).1
                      = a.1 + (e0.1 + e1.1) := rfl
                  have := hS2 b hbq (emerge h a (emerge h e0 e1)) hpaq
                    (by omega) db dpa hrb hdpa
                  omega
              · -- two rest elements stay in front
                subst hrr
                have hr1w : e1.1 ≤ r1.1 := hW1r r1 (by simp)
                by_cases hr1 : r1.1 = e0.1
                · rw [heq] at hP3
                  have hamem : a ∈ r0 :: r1 :: eInsert h (emerge h e0 e1) tt := by
                    rw [← heq]
                    exact hrm a ha_rest
                  have hbmem : b ∈ r0 :: r1 :: eInsert h (emerge h e0 e1) tt := by
                    rw [← heq]
                    exact hrm b hb_rest
                  exact hP3 (by omega) a hamem b hbmem (by omega) (by omega)
                    da db hra hrb
                · have ha0 : a = r0 := by
                    rcases List.mem_cons.mp ha_rest with h1 | ha2
                    · exact h1
                    · exfalso
                      rcases List.mem_cons.mp ha2 with h2 | ha3
                      · rw [h2] at haeq
                        omega
                      · rw [List.pairwise_cons] at hsrr
                        obtain ⟨hsr1, _⟩ := hsrr
                        have := ekeyLe_weight h r1 a (hsr1 a ha3)
                        omega
                  subst ha0
                  cases fl with
                  | zero =>
                    rw [heq] at hrun2
                    exact Option.noConfusion hrun2
                  | succ fl2 =>
                    have hrunq : eLoop h (fl2 + 1)
                        (a :: r1 :: eInsert h (emerge h e0 e1) tt) = some fin := by
                      rw [← heq]
                      exact hrun2
                    have hneq : ∀ e ∈ a :: r1 :: eInsert h (emerge h e0 e1) tt,
                        e.2.2 ≠ [] := by
                      rw [← heq]
                      exact hne'
                    obtain ⟨dpa, hdpa, hda⟩ :=
                      root_succ h fl2 a r1 _ fin hrunq hneq hfnd da hra
                    rcases List.mem_cons.mp hb_rest with h1 | hb2
                    · exfalso
                      rw [h1] at hbeq
                      omega
                    rcases List.mem_cons.mp hb2 with h1 | hb3
                    · subst h1
                      obtain ⟨dpb, hdpb, hdb2⟩ :=
                        root_succ2 h fl2 a b _ fin hrunq hneq hfnd db hrb
                      have := root_uniq fin (emerge h a b) hfnd dpa dpb hdpa hdpb
                      omega
                    · have hrun3 : eLoop h fl2 (eInsert h (emerge h a r1)
                          (eInsert h (emerge h e0 e1) tt)) = some fin := hrunq
                      rw [List.pairwise_cons] at hsrr
                      obtain ⟨hsr1, hstt⟩ := hsrr
                      have hsorted3 : (eInsert h (emerge h a r1)
                          (eInsert h (emerge h e0 e1) tt)).Pairwise
                          (fun x y => ekeyLe h x y = true) :=
                        eInsert_pairwise h _ _ (eInsert_pairwise h _ _ hstt)
                      have hpos3 : ∀ e ∈ eInsert h (emerge h a r1)
                          (eInsert h (emerge h e0 e1) tt), 1 ≤ e.1 := by
                        intro e he
                        rcases eInsert_mem_inv h _ e _ he with heq2 | hm2
                        · rw [heq2]
                          show 1 ≤ a.1 + r1.1
                          omega
                        · rcases eInsert_mem_inv h _ e tt hm2 with heq3 | hm3
                          · rw [heq3]
                            show 1 ≤ e0.1 + e1.1
                            omega
                          · exact hpos e (by simp [hm3])
                      have hne3 := step_ne_nil h a r1 _ hneq
                      have hnd3 : (scriptsOf (eInsert h (emerge h a r1)
                          (eInsert h (emerge h e0 e1) tt))).Nodup := by
                        have hq1 := scriptsOf_eInsert h (emerge h a r1)
                          (eInsert h (emerge h e0 e1) tt)
                        rw [scriptsOf_emerge] at hq1
                        rw [heq] at hnd'
                        exact hq1.symm.nodup hnd'
                      obtain ⟨hS2, _, _, _, _⟩ :=
                        IH fl2 (by omega) _ fin hsorted3 hpos3 hne3 hnd3 hrun3
                      have hbq : b ∈ eInsert h (emerge h a r1)
                          (eInsert h (emerge h e0 e1) tt) :=
                        eInsert_mem h _ b _ (eInsert_mem h _ b tt hb3)
                      have hpaq : emerge h a r1 ∈ eInsert h (emerge h a r1)
                          (eInsert h (emerge h e0 e1) tt) :=
                        eInsert_self_mem h _ _
                      have hpa1 : (emerge h a r1).1 = a.1 + r1.1 := rfl
                      have := hS2 b hbq (emerge h a r1) hpaq
                        (by omega) db dpa hrb hdpa
                      omega

theorem scriptsOf_enrich : ∀ q : List (ℕ × TapNode),
    scriptsOf (q.map enrich) = q.flatMap (fun e => leafScripts e.2) := by
  intro q
  induction q with
  | nil => rfl
  | cons x xs ih =>
    rw [List.map_cons, scriptsOf_cons, ih, List.flatMap_cons]
    show (ndMems x.2).map Prod.fst ++ _ = _
    rw [ndMems_fst]

/-- C7: in every TapTree produced by the Huffman constructor from a
`(weight, leaf)` list with positive weights and pairwise-distinct leaf
scripts, a leaf entered with strictly higher weight never ends at a strictly
greater depth than a leaf entered with strictly lower weight. -/
theorem huffman_weight_depth_monotone (h : Bytes → Bytes → Bytes)
    (l : List (ℕ × TapNode)) (r : TapNode)
    (hrun : huffman_constructor h l = some r)
    (hpos : ∀ e ∈ l, 1 ≤ e.1)
    (hnd : (l.flatMap (fun e => leafScripts e.2)).Nodup)
    (w1 w2 v1 v2 : ℕ) (s1 s2 : Bytes)
    (h1 : (w1, TapNode.tleaf v1 s1) ∈ l) (h2 : (w2, TapNode.tleaf v2 s2) ∈ l)
    (hw : w1 < w2) (d1 d2 : ℕ)
    (hd1 : leafDepth s1 r = some d1) (hd2 : leafDepth s2 r = some d2) :
    d2 ≤ d1 := by
  have hLproj : ((qSort h l).map enrich).map eproj = qSort h l := by
    rw [List.map_map]
    exact List.map_id _
  rw [huffman_constructor, ← hLproj, eLoop_proj] at hrun
  cases hfe : eLoop h l.length ((qSort h l).map enrich) with
  | none =>
    rw [hfe] at hrun
    simp at hrun
  | some fin =>
    rw [hfe] at hrun
    have hfr : fin.2.1 = r := by simpa using hrun
    have hsortL : ((qSort h l).map enrich).Pairwise
        (fun a b => ekeyLe h a b = true) :=
      List.pairwise_map.mpr (qSort_pairwise h l)
    have hposL : ∀ e ∈ (qSort h l).map enrich, 1 ≤ e.1 := by
      intro e he
      rcases List.mem_map.mp he with ⟨x, hx, rfl⟩
      exact hpos x ((qSort_perm h l).subset hx)
    have hneL : ∀ e ∈ (qSort h l).map enrich, e.2.2 ≠ [] := by
      intro e he
      rcases List.mem_map.mp he with ⟨x, hx, rfl⟩
      exact ndMems_ne_nil x.2
    have hndL : (scriptsOf ((qSort h l).map enrich)).Nodup := by
      rw [scriptsOf_enrich]
      exact ((qSort_perm h l).flatMap_right
        (fun e => leafScripts e.2)).symm.nodup hnd
    obtain ⟨hS, _, _, _, _⟩ :=
      eLoop_main h l.length ((qSort h l).map enrich) fin
        hsortL hposL hneL hndL hfe
    have hfnd : (fin.2.2.map Prod.fst).Nodup :=
      (eLoop_scripts h l.length ((qSort h l).map enrich) fin hfe).symm.nodup hndL
    have hmems : fin.2.2.Perm (ndMems fin.2.1) := by
      refine eLoop_mems h l.length ((qSort h l).map enrich) fin ?_ hfe
      intro e he
      rcases List.mem_map.mp he with ⟨x, hx, rfl⟩
      exact List.Perm.refl _
    have hndr : (leafScripts r).Nodup := by
      have hpf := hmems.map Prod.fst
      rw [ndMems_fst, hfr] at hpf
      exact hpf.nodup hfnd
    have haMem : enrich (w1, TapNode.tleaf v1 s1) ∈ (qSort h l).map enrich :=
      List.mem_map.mpr ⟨(w1, TapNode.tleaf v1 s1),
        (qSort_perm h l).symm.subset h1, rfl⟩
    have hbMem : enrich (w2, TapNode.tleaf v2 s2) ∈ (qSort h l).map enrich :=
      List.mem_map.mpr ⟨(w2, TapNode.tleaf v2 s2),
        (qSort_perm h l).symm.subset h2, rfl⟩
    obtain ⟨da, hda⟩ := root_exists h l.length _ fin hfe hneL _ haMem
    obtain ⟨db, hdb⟩ := root_exists h l.length _ fin hfe hneL _ hbMem
    have hma : (s1, da) ∈ fin.2.2 := by
      have := hda.2 (s1, 0) (by simp [enrich, ndMems])
      simpa using this
    have hmb : (s2, db) ∈ fin.2.2 := by
      have := hdb.2 (s2, 0) (by simp [enrich, ndMems])
      simpa using this
    have hda1 : leafDepth s1 r = some da := by
      refine ndMems_mem_leafDepth s1 r da hndr ?_
      rw [← hfr]
      exact hmems.subset hma
    have hdb2 : leafDepth s2 r = some db := by
      refine ndMems_mem_leafDepth s2 r db hndr ?_
      rw [← hfr]
      exact hmems.subset hmb
    have hdaeq : da = d1 := Option.some.inj (hda1.symm.trans hd1)
    have hdbeq : db = d2 := Option.some.inj (hdb2.symm.trans hd2)
    have := hS (enrich (w1, TapNode.tleaf v1 s1)) haMem
      (enrich (w2, TapNode.tleaf v2 s2)) hbMem hw da db hda hdb
    omega

/-- Witness for C7 on the five-leaf example: the weight-1 leaf sits at depth
3 and the weight-5 leaf at depth 2, and 2 ≤ 3 as the theorem asserts. -/
theorem huffman_weight_depth_monotone_witness :
    (huffman_constructor exHash
        [(5, leafA), (4, leafB), (3, leafC), (2, leafD), (1, leafE)]
      = some exTree) ∧
    (∀ e ∈ [(5, leafA), (4, leafB), (3, leafC), (2, leafD), (1, leafE)],
      1 ≤ e.1) ∧
    ([(5, leafA), (4, leafB), (3, leafC), (2, leafD),
        (1, leafE)].flatMap (fun e => leafScripts e.2)).Nodup ∧
    (1, TapNode.tleaf 192 [4]) ∈
      [(5, leafA), (4, leafB), (3, leafC), (2, leafD), (1, leafE)] ∧
    (5, TapNode.tleaf 192 [0]) ∈
      [(5, leafA), (4, leafB), (3, leafC), (2, leafD), (1, leafE)] ∧
    leafDepth [4] exTree = some 3 ∧ leafDepth [0] exTree = some 2 ∧
    2 ≤ 3 :=
  ⟨by decide, by decide, by decide, by decide, by decide, by decide, by decide,
    huffman_weight_depth_monotone exHash
      [(5, leafA), (4, leafB), (3, leafC), (2, leafD), (1, leafE)] exTree
      (by decide) (by decide) (by decide) 1 5 192 192 [4] [0]
      (by decide) (by decide) (by decide) 3 2 (by decide) (by decide)⟩

end TaprootWS
